import Mathlib

/-!
# runeio: a buffered rune reader

Shallow embedding of `runeio.go` (package `runeio`) and proofs about it.

* A Go `rune` (`int32`) is an `Int`; a Go `string` / `[]byte` is the list of its bytes.
* A Go `error` result is an `Option Error` (`none` is `nil`).
* A Go `uint` argument is a `Nat` below `2^64`; `int(n)` and the subtraction in
  `readFromReader` wrap as on a 64-bit machine.
* A method of `*Reader` takes the reader state and returns the new state next to its
  results; a method that can hit a run-time panic (slice bounds, index out of range)
  returns an `Option`, `none` being the panic.
* The `RuneReader` interface value is a `Source`: the script of what its next `ReadRune`
  calls answer, then one final error reported for ever.
-/

namespace Runeio

/-- Go `rune`. -/
abbrev Rune := Int

/-- Go `error` values a source can report: `io.EOF`, or any other error (numbered). -/
inductive Error where
  | EOF
  | other (code : Nat)
  deriving DecidableEq, Repr

/-- Go `unicode.ReplacementChar`, U+FFFD. -/
def ReplacementChar : Rune := 0xFFFD

/-- One answer of the source to `ReadRune`: a rune together with the raw bytes it was
decoded from (their number is the `size` result), or a failure. -/
inductive Event where
  | rune (r : Rune) (raw : List Nat)
  | fail (e : Error)
  deriving DecidableEq, Repr

/-- State of a `RuneReader`: the answers still to come, the error reported once they are
used up (persistently), and the number of `ReadRune` calls made so far. -/
structure Source where
  script : List Event
  final : Error
  calls : Nat
  deriving DecidableEq, Repr

/-- Interface method `ReadRune() (r rune, size int, err error)`. -/
def Source.ReadRune (s : Source) : (Rune × Nat × Option Error) × Source :=
  match s.script with
  | [] => ((0, 0, some s.final), { s with calls := s.calls + 1 })
  | Event.rune r raw :: rest =>
      ((r, raw.length, none), { s with script := rest, calls := s.calls + 1 })
  | Event.fail e :: rest =>
      ((0, 0, some e), { s with script := rest, calls := s.calls + 1 })

/-- Bytes delivered by repeated `Read` calls up to the first failure, that failure unless
it is `io.EOF`, and the answers left after it: what `ioutil.ReadAll` sees of the source. -/
def drain : List Event → Error → List Nat × Option Error × List Event
  | [], fin => ([], if fin = Error.EOF then none else some fin, [])
  | Event.rune _ raw :: es, fin =>
      let res := drain es fin
      (raw ++ res.1, res.2.1, res.2.2)
  | Event.fail e :: es, _ => ([], if e = Error.EOF then none else some e, es)

/-- Go `ioutil.ReadAll(src)`: all bytes up to end of input; `io.EOF` is not an error. -/
def Source.ReadAll (s : Source) : (List Nat × Option Error) × Source :=
  let res := drain s.script s.final
  ((res.1, res.2.1), { s with script := res.2.2 })

/-- Go conversion of one rune to UTF-8 (`string(rune)`): runes outside the Unicode range
and surrogates become U+FFFD. -/
def encodeRune (r : Rune) : List Nat :=
  let n := r.toNat
  if 0 ≤ r ∧ r ≤ 0x7F then [n]
  else if 0 ≤ r ∧ r ≤ 0x7FF then [0xC0 + n / 64, 0x80 + n % 64]
  else if r < 0 ∨ 0x10FFFF < r ∨ (0xD800 ≤ r ∧ r ≤ 0xDFFF) then [0xEF, 0xBF, 0xBD]
  else if r ≤ 0xFFFF then [0xE0 + n / 4096, 0x80 + n / 64 % 64, 0x80 + n % 64]
  else [0xF0 + n / 262144, 0x80 + n / 4096 % 64, 0x80 + n / 64 % 64, 0x80 + n % 64]

/-- Go `string(runes)` for a `[]rune`. -/
def encodeRunes : List Rune → List Nat
  | [] => []
  | r :: rs => encodeRune r ++ encodeRunes rs

/-- Two's-complement wrap of an integer into the range of Go's 64-bit `int`. -/
def wrapInt (z : Int) : Int :=
  (z + 9223372036854775808) % 18446744073709551616 - 9223372036854775808

/-- Go `int(n)` for a `uint` value `n`. -/
def toInt (n : Nat) : Int := wrapInt (n : Int)

/-- Go `type Reader struct { RuneReader; Runes []rune }`. -/
structure Reader where
  src : Source
  Runes : List Rune
  deriving DecidableEq, Repr

/-- Go `NewReader`. -/
def NewReader (s : Source) : Reader := { src := s, Runes := [] }

/-- The `for i := 0; i < l; i++` loop of `readFromReader`, `k` iterations to go. -/
def readLoop : Nat → Reader → Option Error × Reader
  | 0, r => (none, r)
  | k + 1, r =>
      let res := r.src.ReadRune
      match res.1.2.2 with
      | some e => (some e, { r with src := res.2 })
      | none => readLoop k { src := res.2, Runes := r.Runes ++ [res.1.1] }

/-- Go `readFromReader`: make the buffer hold `n` runes, pulling from the source. -/
def Reader.readFromReader (r : Reader) (n : Nat) : Option Error × Reader :=
  let l := wrapInt (toInt n - (r.Runes.length : Int))
  if l ≤ 0 then (none, r) else readLoop l.toNat r

/-- Go `ReadRunes`. The slice expressions `r.Runes[0:n]` and `r.Runes[n:]` panic when
`n` exceeds the length (the upper bound of `[0:n]` is the capacity, but the code reaches
it with `n` above the length only for `n ≥ 2^63`, which is above every capacity). -/
def Reader.ReadRunes (r : Reader) (n : Nat) : Option ((List Rune × Option Error) × Reader) :=
  let res := r.readFromReader n
  let n1 := if res.1.isSome then res.2.Runes.length else n
  if n1 ≤ res.2.Runes.length then
    some ((res.2.Runes.take n1, res.1), { res.2 with Runes := res.2.Runes.drop n1 })
  else none

/-- Go `ReadSingleRune`. -/
def Reader.ReadSingleRune (r : Reader) : Option ((Rune × Option Error) × Reader) :=
  match r.ReadRunes 1 with
  | none => none
  | some ((runes, err), r1) =>
      if err.isSome then some ((ReplacementChar, err), r1)
      else
        match runes with
        | [] => none
        | x :: _ => some ((x, none), r1)

/-- Go `Discard`: `runes, err := r.ReadRunes(n)`, then `return uint(len(runes)), err`;
a panic of `ReadRunes` is a panic of `Discard`. -/
def Reader.Discard (r : Reader) (n : Nat) : Option ((Nat × Option Error) × Reader) :=
  (r.ReadRunes n).map (fun res => ((res.1.1.length, res.1.2), res.2))

/-- Go `PeekRunes`. -/
def Reader.PeekRunes (r : Reader) (n : Nat) : Option ((List Rune × Option Error) × Reader) :=
  let res := r.readFromReader n
  if res.1.isSome then some ((res.2.Runes, res.1), res.2)
  else if n ≤ res.2.Runes.length then some ((res.2.Runes.take n, none), res.2)
  else none

/-- Go `PeekSingleRune`. -/
def Reader.PeekSingleRune (r : Reader) : Option ((Rune × Option Error) × Reader) :=
  match r.PeekRunes 1 with
  | none => none
  | some ((runes, err), r1) =>
      if err.isSome then some ((ReplacementChar, err), r1)
      else
        match runes with
        | [] => none
        | x :: _ => some ((x, none), r1)

/-- The `for` loop of `ReadTill` with the runes accumulated so far; `none` is a panic
of a callee or the end of the fuel. -/
def ReadTillLoop (matcherFn : Rune → Bool) : Nat → Reader → List Rune → Option (List Rune × Reader)
  | 0, _, _ => none
  | fuel + 1, r, runes =>
      match r.PeekSingleRune with
      | none => none
      | some ((ru, err), r1) =>
          if err.isSome || !matcherFn ru then some (runes, r1)
          else
            match r1.ReadSingleRune with
            | none => none
            | some (_, r2) => ReadTillLoop matcherFn fuel r2 (runes ++ [ru])

/-- Go `ReadTill`. Every turn of the loop but the last removes one rune, so one turn per
buffered rune and per answer of the source, and one more, always suffice. -/
def Reader.ReadTill (r : Reader) (matcherFn : Rune → Bool) : Option (List Rune × Reader) :=
  ReadTillLoop matcherFn (r.Runes.length + r.src.script.length + 1) r []

/-- Go `Reset`. -/
def Reader.Reset (r : Reader) (bufReader : Source) : Reader := { r with src := bufReader }

/-- Go `IsAtEnd`. -/
def Reader.IsAtEnd (r : Reader) : Option (Bool × Reader) :=
  match r.PeekSingleRune with
  | none => none
  | some ((_, err), r1) => some (decide (err = some Error.EOF), r1)

/-- Go `String`. -/
def Reader.String (r : Reader) : (List Nat × Option Error) × Reader :=
  let res := r.src.ReadAll
  if res.1.2.isSome then (([], res.1.2), { r with src := res.2 })
  else ((encodeRunes r.Runes ++ res.1.1, none), { r with src := res.2 })

/-! ## Specification vocabulary -/

/-- Runes the source still yields before its first error. -/
def pendingRunes : List Event → List Rune
  | [] => []
  | Event.rune r _ :: es => r :: pendingRunes es
  | Event.fail _ :: _ => []

/-- The first error the source will report: the first failure of the script, or the
final error when the script holds none. -/
def firstError : List Event → Error → Error
  | [], fin => fin
  | Event.rune _ _ :: es, fin => firstError es fin
  | Event.fail e :: _, _ => e

/-- What is left of the script once its first failure has been reported. -/
def afterError : List Event → List Event
  | [] => []
  | Event.rune _ _ :: es => afterError es
  | Event.fail _ :: es => es

/-- Every rune the script holds, failures skipped. -/
def allRunes : List Event → List Rune
  | [] => []
  | Event.rune r _ :: es => r :: allRunes es
  | Event.fail _ :: es => allRunes es

/-- Raw bytes of the runes the source yields before its first error. -/
def pendingBytes : List Event → List Nat
  | [] => []
  | Event.rune _ raw :: es => raw ++ pendingBytes es
  | Event.fail _ :: _ => []

/-- The sequence `buffer ++ unread-source`: the buffered runes followed by the runes the
source yields before its first error. -/
def Reader.view (r : Reader) : List Rune := r.Runes ++ pendingRunes r.src.script

/-- Number of available runes. -/
def Reader.available (r : Reader) : Nat := r.view.length

/-- The buffer is a Go slice: its length is an `int`. -/
def Reader.Fits (r : Reader) : Prop := r.Runes.length < 9223372036854775808

instance (r : Reader) : Decidable r.Fits := by unfold Reader.Fits; infer_instance

/-- The source never fails before its end: it yields its runes and then reports its
final error for ever. -/
def Source.Steady (s : Source) : Prop := ∀ e ∈ s.script, ∃ r raw, e = Event.rune r raw

/-- Every rune of the source comes with its own UTF-8 encoding as raw bytes. -/
def Source.WellEncoded (s : Source) : Prop :=
  ∀ r raw, Event.rune r raw ∈ s.script → raw = encodeRune r

/-- A source over the text `s`, as `bytes.NewBufferString` builds one. -/
def bufferString (s : List Rune) : Source :=
  { script := s.map (fun r => Event.rune r (encodeRune r)), final := Error.EOF, calls := 0 }

/-- State after a fill to `n` runes that the source could serve. -/
def Reader.filled (r : Reader) (n : Nat) : Reader :=
  { src := { script := r.src.script.drop (n - r.Runes.length), final := r.src.final,
             calls := r.src.calls + (n - r.Runes.length) },
    Runes := r.Runes ++ (pendingRunes r.src.script).take (n - r.Runes.length) }

/-- State after a fill that ran into the first error of the source. -/
def Reader.exhausted (r : Reader) : Reader :=
  { src := { script := afterError r.src.script, final := r.src.final,
             calls := r.src.calls + (pendingRunes r.src.script).length + 1 },
    Runes := r.Runes ++ pendingRunes r.src.script }

/-- State after `ReadRunes(n)` when `n` runes are available. -/
def Reader.afterRead (r : Reader) (n : Nat) : Reader :=
  { src := (r.filled n).src, Runes := r.Runes.drop n }

/-! ## Sample readers -/

/-- Fresh reader over the text "Hello World", as in the tests. -/
def hw : Reader :=
  NewReader (bufferString [72, 101, 108, 108, 111, 32, 87, 111, 114, 108, 100])

/-- Reader over "Hello World" after `PeekRunes(3)`: "Hel" sits in the buffer. -/
def hwPeeked : Reader := hw.filled 3

/-- Fresh reader over a source that reports `io.EOF` once and then delivers "a", as a
reader over a growing file does. -/
def flaky : Reader :=
  NewReader { script := [Event.fail Error.EOF, Event.rune 97 [97]], final := Error.EOF,
              calls := 0 }

/-- Fresh reader over a `bytes.Buffer` holding the single invalid byte `0xFF`, which
`ReadRune` decodes as U+FFFD of size one. -/
def garbled : Reader :=
  NewReader { script := [Event.rune 65533 [255]], final := Error.EOF, calls := 0 }

/-- The matcher `unicode.IsLetter`, on ASCII letters. -/
def isLetter (r : Rune) : Bool := (decide (65 ≤ r) && decide (r ≤ 90)) || (decide (97 ≤ r) && decide (r ≤ 122))

/-- Reader holding "H" in its buffer over a source that reports `io.EOF` and later
delivers "a", as a reader over a growing file does. -/
def tailing : Reader :=
  { src := { script := [Event.fail Error.EOF, Event.rune 97 [97]], final := Error.EOF,
             calls := 0 },
    Runes := [72] }

/-- Fresh reader over a source that delivers "a" and then fails to decode (an error
other than `io.EOF`). -/
def broken : Reader :=
  NewReader { script := [Event.rune 97 [97], Event.fail (Error.other 1)],
              final := Error.EOF, calls := 0 }

/-- The source `bytes.NewBufferString("New")` of the `Reset` test. -/
def newSrc : Source := bufferString [78, 101, 119]

/-- Fresh reader over a source that delivers "a", reports `io.EOF`, and later delivers
"b". -/
def resumed : Reader :=
  NewReader { script := [Event.rune 97 [97], Event.fail Error.EOF, Event.rune 98 [98]],
              final := Error.EOF, calls := 0 }

/-! ## The fill loop -/

theorem wrapInt_id (z : Int) (h1 : -9223372036854775808 ≤ z) (h2 : z < 9223372036854775808) :
    wrapInt z = z := by
  unfold wrapInt; omega

theorem toInt_small (n : Nat) (h : n < 9223372036854775808) : toInt n = (n : Int) := by
  unfold toInt; apply wrapInt_id <;> omega

theorem deficit_small (n len : Nat) (hn : n < 9223372036854775808)
    (hl : len < 9223372036854775808) :
    wrapInt (toInt n - (len : Int)) = (n : Int) - (len : Int) := by
  rw [toInt_small n hn]; apply wrapInt_id <;> omega

theorem pendingRunes_drop (k : Nat) : ∀ (es : List Event), k ≤ (pendingRunes es).length →
    pendingRunes (es.drop k) = (pendingRunes es).drop k := by
  induction k with
  | zero => intro es _; simp
  | succ k ih =>
    intro es h
    match es, h with
    | [], _ => simp [pendingRunes]
    | Event.rune r raw :: es, h =>
      simp only [pendingRunes, List.length_cons, Nat.add_le_add_iff_right] at h
      simp [pendingRunes, ih es h]
    | Event.fail e :: es, h => simp [pendingRunes] at h

theorem readLoop_ok (k : Nat) : ∀ (r : Reader), k ≤ (pendingRunes r.src.script).length →
    readLoop k r = (none,
      { src := { script := r.src.script.drop k, final := r.src.final,
                 calls := r.src.calls + k },
        Runes := r.Runes ++ (pendingRunes r.src.script).take k }) := by
  induction k with
  | zero => intro r _; simp [readLoop]
  | succ k ih =>
    intro r h
    obtain ⟨⟨script, fin, calls⟩, buf⟩ := r
    match script, h with
    | [], h => simp [pendingRunes] at h
    | Event.fail e :: es, h => simp [pendingRunes] at h
    | Event.rune x raw :: es, h =>
      simp only [pendingRunes, List.length_cons, Nat.add_le_add_iff_right] at h
      simp only [readLoop, Source.ReadRune]
      rw [ih _ h]
      simp [pendingRunes, Nat.add_assoc, Nat.add_comm 1 k]

theorem readLoop_err (k : Nat) : ∀ (r : Reader), (pendingRunes r.src.script).length < k →
    readLoop k r = (some (firstError r.src.script r.src.final),
      { src := { script := afterError r.src.script, final := r.src.final,
                 calls := r.src.calls + (pendingRunes r.src.script).length + 1 },
        Runes := r.Runes ++ pendingRunes r.src.script }) := by
  induction k with
  | zero => intro r h; simp at h
  | succ k ih =>
    intro r h
    obtain ⟨⟨script, fin, calls⟩, buf⟩ := r
    match script, h with
    | [], _ => simp [readLoop, Source.ReadRune, pendingRunes, firstError, afterError]
    | Event.fail e :: es, _ =>
      simp [readLoop, Source.ReadRune, pendingRunes, firstError, afterError]
    | Event.rune x raw :: es, h =>
      simp only [pendingRunes, List.length_cons, Nat.add_lt_add_iff_right] at h
      simp only [readLoop, Source.ReadRune]
      rw [ih _ h]
      simp [pendingRunes, firstError, afterError, Nat.add_assoc, Nat.add_comm 1]

theorem readFromReader_ok (r : Reader) (n : Nat) (hf : r.Fits)
    (hn : n < 9223372036854775808) (ha : n ≤ r.available) :
    r.readFromReader n = (none, r.filled n) := by
  unfold Reader.Fits at hf
  unfold Reader.readFromReader
  simp only [deficit_small n _ hn hf]
  by_cases hle : (n : Int) - (r.Runes.length : Int) ≤ 0
  · have h0 : n - r.Runes.length = 0 := by omega
    obtain ⟨⟨script, fin, calls⟩, buf⟩ := r
    simp [hle, Reader.filled, h0]
  · have hk : n - r.Runes.length ≤ (pendingRunes r.src.script).length := by
      simp only [Reader.available, Reader.view, List.length_append] at ha
      omega
    simp only [hle, if_false, Int.toNat_sub]
    rw [readLoop_ok _ r hk]
    rfl

theorem readFromReader_err (r : Reader) (n : Nat) (hf : r.Fits)
    (hn : n < 9223372036854775808) (ha : r.available < n) :
    r.readFromReader n = (some (firstError r.src.script r.src.final), r.exhausted) := by
  unfold Reader.Fits at hf
  unfold Reader.readFromReader
  simp only [deficit_small n _ hn hf]
  simp only [Reader.available, Reader.view, List.length_append] at ha
  have hle : ¬ ((n : Int) - (r.Runes.length : Int) ≤ 0) := by omega
  have hk : (pendingRunes r.src.script).length < n - r.Runes.length := by omega
  simp only [hle, if_false, Int.toNat_sub]
  rw [readLoop_err _ r hk]
  rfl

theorem take_fill (buf pend : List Rune) (n : Nat) :
    (buf ++ pend.take (n - buf.length)).take n = (buf ++ pend).take n := by
  simp [List.take_append_eq_append_take, List.take_take]

theorem drop_fill (buf pend : List Rune) (n : Nat) :
    (buf ++ pend.take (n - buf.length)).drop n = buf.drop n := by
  simp [List.drop_append_eq_append_drop]

theorem filled_length_ge (r : Reader) (n : Nat) (ha : n ≤ r.available) :
    n ≤ (r.filled n).Runes.length := by
  simp only [Reader.available, Reader.view, List.length_append] at ha
  simp only [Reader.filled, List.length_append, List.length_take]
  omega

theorem filled_view (r : Reader) (n : Nat) (ha : n ≤ r.available) :
    (r.filled n).view = r.view := by
  simp only [Reader.available, Reader.view, List.length_append] at ha
  have hk : n - r.Runes.length ≤ (pendingRunes r.src.script).length := by omega
  simp only [Reader.filled, Reader.view, pendingRunes_drop _ _ hk, List.append_assoc,
    List.take_append_drop]

theorem ReadRunes_ok (r : Reader) (n : Nat) (hf : r.Fits)
    (hn : n < 9223372036854775808) (ha : n ≤ r.available) :
    r.ReadRunes n = some ((r.view.take n, none),
      { src := (r.filled n).src, Runes := r.Runes.drop n }) := by
  have hlen := filled_length_ge r n ha
  unfold Reader.ReadRunes
  simp only [readFromReader_ok r n hf hn ha, Option.isSome_none, Bool.false_eq_true, if_false,
    hlen, if_true]
  simp [Reader.filled, Reader.view, take_fill, drop_fill]

theorem ReadRunes_err (r : Reader) (n : Nat) (hf : r.Fits)
    (hn : n < 9223372036854775808) (ha : r.available < n) :
    r.ReadRunes n = some ((r.view, some (firstError r.src.script r.src.final)),
      { src := r.exhausted.src, Runes := [] }) := by
  unfold Reader.ReadRunes
  simp [readFromReader_err r n hf hn ha, Reader.exhausted, Reader.view]

theorem PeekRunes_ok (r : Reader) (n : Nat) (hf : r.Fits)
    (hn : n < 9223372036854775808) (ha : n ≤ r.available) :
    r.PeekRunes n = some ((r.view.take n, none), r.filled n) := by
  have hlen := filled_length_ge r n ha
  unfold Reader.PeekRunes
  simp only [readFromReader_ok r n hf hn ha, Option.isSome_none, Bool.false_eq_true, if_false,
    hlen, if_true]
  simp [Reader.filled, Reader.view, take_fill]

theorem PeekRunes_err (r : Reader) (n : Nat) (hf : r.Fits)
    (hn : n < 9223372036854775808) (ha : r.available < n) :
    r.PeekRunes n = some ((r.view, some (firstError r.src.script r.src.final)),
      r.exhausted) := by
  unfold Reader.PeekRunes
  simp [readFromReader_err r n hf hn ha, Reader.exhausted, Reader.view]

theorem allRunes_drop (k : Nat) : ∀ (es : List Event), k ≤ (pendingRunes es).length →
    allRunes es = (pendingRunes es).take k ++ allRunes (es.drop k) := by
  induction k with
  | zero => intro es _; simp
  | succ k ih =>
    intro es h
    match es, h with
    | [], h => simp [pendingRunes] at h
    | Event.fail e :: es, h => simp [pendingRunes] at h
    | Event.rune r raw :: es, h =>
      simp only [pendingRunes, List.length_cons, Nat.add_le_add_iff_right] at h
      simp only [allRunes, pendingRunes, List.take_succ_cons, List.drop_succ_cons,
        List.cons_append]
      rw [← ih es h]

theorem afterRead_view (r : Reader) (n : Nat) (ha : n ≤ r.available) :
    (r.afterRead n).view = r.view.drop n := by
  simp only [Reader.available, Reader.view, List.length_append] at ha
  have hk : n - r.Runes.length ≤ (pendingRunes r.src.script).length := by omega
  simp only [Reader.afterRead, Reader.filled, Reader.view, pendingRunes_drop _ _ hk,
    List.drop_append_eq_append_drop]

theorem afterRead_allRunes (r : Reader) (n : Nat) (ha : n ≤ r.available) :
    (r.afterRead n).Runes ++ allRunes (r.afterRead n).src.script
      = (r.Runes ++ allRunes r.src.script).drop n := by
  simp only [Reader.available, Reader.view, List.length_append] at ha
  have hk : n - r.Runes.length ≤ (pendingRunes r.src.script).length := by omega
  have hlen : ((pendingRunes r.src.script).take (n - r.Runes.length)).length
      = n - r.Runes.length := by
    simp only [List.length_take]; omega
  simp only [Reader.afterRead, Reader.filled, List.drop_append_eq_append_drop]
  congr 1
  conv_rhs => rw [allRunes_drop _ _ hk]
  have hnil : ((pendingRunes r.src.script).take (n - r.Runes.length)).drop
      (n - r.Runes.length) = [] := List.drop_eq_nil_of_le (by omega)
  rw [List.drop_append_eq_append_drop, hlen, Nat.sub_self, List.drop_zero, hnil,
    List.nil_append]

theorem filled_fits (r : Reader) (n : Nat) (hf : r.Fits) (hn : n < 9223372036854775808) :
    (r.filled n).Fits := by
  unfold Reader.Fits at *
  simp only [Reader.filled, List.length_append, List.length_take]
  omega

theorem filled_available (r : Reader) (n : Nat) (ha : n ≤ r.available) :
    (r.filled n).available = r.available := by
  simp only [Reader.available, filled_view r n ha]

theorem exhausted_fits (r : Reader) (n : Nat) (hn : n < 9223372036854775808)
    (ha : r.available < n) : r.exhausted.Fits := by
  simp only [Reader.available, Reader.view, List.length_append] at ha
  simp only [Reader.Fits, Reader.exhausted, List.length_append]
  omega

theorem steady_pending : ∀ (es : List Event), (∀ e ∈ es, ∃ r raw, e = Event.rune r raw) →
    afterError es = [] ∧ ∀ fin, firstError es fin = fin := by
  intro es
  induction es with
  | nil => intro _; simp [afterError, firstError]
  | cons e es ih =>
    intro h
    obtain ⟨x, raw, rfl⟩ := h e (List.mem_cons_self _ _)
    have h2 := ih (fun e he => h e (List.mem_cons_of_mem _ he))
    simp [afterError, firstError, h2]

theorem exhausted_view_steady (r : Reader) (hs : r.src.Steady) :
    r.exhausted.view = r.view ∧ r.exhausted.src.script = []
      ∧ firstError r.exhausted.src.script r.exhausted.src.final
          = firstError r.src.script r.src.final := by
  have h := steady_pending r.src.script hs
  simp [Reader.exhausted, Reader.view, h.1, h.2, pendingRunes, firstError]

theorem bufferString_steady (s : List Rune) : (bufferString s).Steady := by
  intro e he
  simp only [bufferString, List.mem_map] at he
  obtain ⟨x, _, rfl⟩ := he
  exact ⟨x, _, rfl⟩

theorem hw_steady : hw.src.Steady := bufferString_steady _

/-! ## Single runes, the drain, and what a peek keeps -/

theorem firstError_drop (k : Nat) : ∀ (es : List Event) (fin : Error),
    k ≤ (pendingRunes es).length → firstError (es.drop k) fin = firstError es fin := by
  induction k with
  | zero => intro es fin _; simp
  | succ k ih =>
    intro es fin h
    match es, h with
    | [], _ => simp
    | Event.fail e :: es, h => simp [pendingRunes] at h
    | Event.rune r raw :: es, h =>
      simp only [pendingRunes, List.length_cons, Nat.add_le_add_iff_right] at h
      simp only [List.drop_succ_cons, firstError]
      exact ih es fin h

theorem drain_eq : ∀ (es : List Event) (fin : Error),
    drain es fin = (pendingBytes es,
      if firstError es fin = Error.EOF then none else some (firstError es fin),
      afterError es) := by
  intro es fin
  induction es with
  | nil => simp [drain, pendingBytes, firstError, afterError]
  | cons e es ih =>
    cases e with
    | rune r raw => simp [drain, pendingBytes, firstError, afterError, ih]
    | fail e => simp [drain, pendingBytes, firstError, afterError]

theorem encodeRunes_append (xs ys : List Rune) :
    encodeRunes (xs ++ ys) = encodeRunes xs ++ encodeRunes ys := by
  induction xs with
  | nil => simp [encodeRunes]
  | cons x xs ih => simp [encodeRunes, ih]

theorem encode_fill (k : Nat) : ∀ (es : List Event), k ≤ (pendingRunes es).length →
    (∀ r raw, Event.rune r raw ∈ es → raw = encodeRune r) →
    encodeRunes ((pendingRunes es).take k) ++ pendingBytes (es.drop k) = pendingBytes es := by
  induction k with
  | zero => intro es _ _; simp [encodeRunes]
  | succ k ih =>
    intro es hk h
    match es, hk, h with
    | [], hk, _ => simp [pendingRunes] at hk
    | Event.fail e :: es, hk, _ => simp [pendingRunes] at hk
    | Event.rune r raw :: es, hk, h =>
      simp only [pendingRunes, List.length_cons, Nat.add_le_add_iff_right] at hk
      have hraw : raw = encodeRune r := h r raw (List.mem_cons_self _ _)
      have h2 := ih es hk (fun r raw hm => h r raw (List.mem_cons_of_mem _ hm))
      simp only [pendingRunes, List.take_succ_cons, encodeRunes, List.drop_succ_cons,
        pendingBytes, List.append_assoc, h2, hraw]

theorem pendingBytes_drop_pending : ∀ (es : List Event),
    pendingBytes (es.drop (pendingRunes es).length) = [] := by
  intro es
  induction es with
  | nil => simp [pendingRunes, pendingBytes]
  | cons e es ih =>
    cases e with
    | rune r raw => simpa [pendingRunes] using ih
    | fail e => simp [pendingRunes, pendingBytes]

theorem encode_pending (es : List Event)
    (h : ∀ r raw, Event.rune r raw ∈ es → raw = encodeRune r) :
    encodeRunes (pendingRunes es) = pendingBytes es := by
  have h1 := encode_fill (pendingRunes es).length es (Nat.le_refl _) h
  rw [List.take_length, pendingBytes_drop_pending es, List.append_nil] at h1
  exact h1

theorem String_fst (r : Reader) :
    r.String.1 = if firstError r.src.script r.src.final = Error.EOF
      then (encodeRunes r.Runes ++ pendingBytes r.src.script, none)
      else ([], some (firstError r.src.script r.src.final)) := by
  unfold Reader.String Source.ReadAll
  simp only [drain_eq]
  by_cases h : firstError r.src.script r.src.final = Error.EOF <;> simp [h]

theorem ReadRunes_fst (r : Reader) (m : Nat) (hf : r.Fits) (hm : m < 9223372036854775808) :
    ∃ r2, r.ReadRunes m = some ((if m ≤ r.available then (r.view.take m, none)
      else (r.view, some (firstError r.src.script r.src.final))), r2) := by
  by_cases ha : m ≤ r.available
  · exact ⟨_, by rw [ReadRunes_ok r m hf hm ha, if_pos ha]⟩
  · exact ⟨_, by rw [ReadRunes_err r m hf hm (Nat.lt_of_not_le ha), if_neg ha]⟩

theorem fill_keeps (r : Reader) (n : Nat) (hf : r.Fits) (hn : n < 9223372036854775808)
    (h : n ≤ r.available ∨ r.src.Steady) :
    ∃ pres r1, r.PeekRunes n = some (pres, r1) ∧ (pres.2.isSome ∨ n ≤ pres.1.length)
      ∧ r1.Fits ∧ r1.view = r.view
      ∧ firstError r1.src.script r1.src.final = firstError r.src.script r.src.final
      ∧ (r.src.WellEncoded → r1.String.1 = r.String.1) := by
  by_cases ha : n ≤ r.available
  · have hk : n - r.Runes.length ≤ (pendingRunes r.src.script).length := by
      simp only [Reader.available, Reader.view, List.length_append] at ha
      omega
    have hfe : firstError (r.filled n).src.script (r.filled n).src.final
        = firstError r.src.script r.src.final := by
      simp only [Reader.filled]; exact firstError_drop _ _ _ hk
    refine ⟨_, _, PeekRunes_ok r n hf hn ha, Or.inr ?_, filled_fits r n hf hn,
      filled_view r n ha, hfe, ?_⟩
    · simp only [List.length_take]; exact Nat.le_min.mpr ⟨Nat.le_refl n, ha⟩
    · intro hw
      rw [String_fst, String_fst, hfe]
      simp only [Reader.filled, encodeRunes_append, List.append_assoc,
        encode_fill _ _ hk hw]
  · have hs : r.src.Steady := by
      rcases h with h | h
      · exact absurd h ha
      · exact h
    have ha' : r.available < n := Nat.lt_of_not_le ha
    obtain ⟨hv, hscr, herr⟩ := exhausted_view_steady r hs
    refine ⟨_, _, PeekRunes_err r n hf hn ha', Or.inl rfl, exhausted_fits r n hn ha', hv, herr,
      ?_⟩
    intro hw
    rw [String_fst, String_fst, herr, hscr]
    simp only [Reader.exhausted, encodeRunes_append, List.append_assoc, pendingBytes,
      List.append_nil, encode_pending _ hw]

theorem PeekSingleRune_of_PeekRunes (r r1 : Reader) (pres : List Rune × Option Error)
    (h : r.PeekRunes 1 = some (pres, r1)) (hne : pres.2.isSome ∨ 1 ≤ pres.1.length) :
    ∃ x, r.PeekSingleRune = some (x, r1) := by
  obtain ⟨runes, err⟩ := pres
  unfold Reader.PeekSingleRune
  rw [h]
  cases err with
  | some e => exact ⟨(ReplacementChar, some e), by simp⟩
  | none =>
    cases runes with
    | nil => simp at hne
    | cons x xs => exact ⟨(x, none), by simp⟩

theorem same_ReadRunes (r r1 : Reader) (m : Nat) (hf : r.Fits) (hf1 : r1.Fits)
    (hm : m < 9223372036854775808) (hv : r1.view = r.view)
    (he : firstError r1.src.script r1.src.final = firstError r.src.script r.src.final) :
    ∃ res r2 r3, r.ReadRunes m = some (res, r2) ∧ r1.ReadRunes m = some (res, r3) := by
  obtain ⟨r2, h2⟩ := ReadRunes_fst r m hf hm
  obtain ⟨r3, h3⟩ := ReadRunes_fst r1 m hf1 hm
  refine ⟨_, r2, r3, h2, ?_⟩
  rw [h3]
  simp only [Reader.available, hv, he]

/-! ## Single runes and the `ReadTill` loop -/

theorem PeekSingleRune_cons (r : Reader) (hf : r.Fits) (x : Rune) (rest : List Rune)
    (hv : r.view = x :: rest) : r.PeekSingleRune = some ((x, none), r.filled 1) := by
  have ha : 1 ≤ r.available := by simp [Reader.available, hv]
  unfold Reader.PeekSingleRune
  rw [PeekRunes_ok r 1 hf (by norm_num) ha, hv]
  rfl

theorem PeekSingleRune_nil (r : Reader) (hf : r.Fits) (hv : r.view = []) :
    r.PeekSingleRune
      = some ((ReplacementChar, some (firstError r.src.script r.src.final)), r.exhausted) := by
  have ha : r.available < 1 := by simp [Reader.available, hv]
  unfold Reader.PeekSingleRune
  rw [PeekRunes_err r 1 hf (by norm_num) ha]
  rfl

theorem ReadSingleRune_cons (r : Reader) (hf : r.Fits) (x : Rune) (rest : List Rune)
    (hv : r.view = x :: rest) : r.ReadSingleRune = some ((x, none), r.afterRead 1) := by
  have ha : 1 ≤ r.available := by simp [Reader.available, hv]
  unfold Reader.ReadSingleRune
  rw [ReadRunes_ok r 1 hf (by norm_num) ha, hv]
  rfl

theorem ReadSingleRune_nil (r : Reader) (hf : r.Fits) (hv : r.view = []) :
    r.ReadSingleRune
      = some ((ReplacementChar, some (firstError r.src.script r.src.final)),
          { src := r.exhausted.src, Runes := [] }) := by
  have ha : r.available < 1 := by simp [Reader.available, hv]
  unfold Reader.ReadSingleRune
  rw [ReadRunes_err r 1 hf (by norm_num) ha]
  rfl

theorem allRunes_split : ∀ (es : List Event),
    allRunes es = pendingRunes es ++ allRunes (afterError es) := by
  intro es
  induction es with
  | nil => simp [allRunes, pendingRunes, afterError]
  | cons e es ih =>
    cases e with
    | rune r raw => simp [allRunes, pendingRunes, afterError, ih]
    | fail e => simp [allRunes, pendingRunes, afterError]

theorem filled_allRunes (r : Reader) (n : Nat) (ha : n ≤ r.available) :
    (r.filled n).Runes ++ allRunes (r.filled n).src.script
      = r.Runes ++ allRunes r.src.script := by
  simp only [Reader.available, Reader.view, List.length_append] at ha
  have hk : n - r.Runes.length ≤ (pendingRunes r.src.script).length := by omega
  simp only [Reader.filled, List.append_assoc]
  rw [← allRunes_drop _ _ hk]

theorem afterRead_fits (r : Reader) (n : Nat) (hf : r.Fits) : (r.afterRead n).Fits := by
  unfold Reader.Fits at *
  simp only [Reader.afterRead, List.length_drop]
  omega

theorem filled_steady (r : Reader) (n : Nat) (hs : r.src.Steady) :
    (r.filled n).src.Steady := by
  intro e he
  exact hs e (List.mem_of_mem_drop he)

theorem pendingRunes_length_le : ∀ (es : List Event), (pendingRunes es).length ≤ es.length := by
  intro es
  induction es with
  | nil => simp [pendingRunes]
  | cons e es ih =>
    cases e with
    | rune r raw => simpa [pendingRunes] using ih
    | fail e => simp [pendingRunes]

theorem ReadTillLoop_spec (p : Rune → Bool) : ∀ (k : Nat) (r : Reader) (acc : List Rune)
    (fuel : Nat), r.Fits → r.view.length = k → k < fuel →
    ∃ r', ReadTillLoop p fuel r acc = some (acc ++ r.view.takeWhile p, r')
      ∧ r'.Fits
      ∧ r'.Runes ++ allRunes r'.src.script
          = (r.Runes ++ allRunes r.src.script).drop (r.view.takeWhile p).length
      ∧ (∀ x rest, r.view.dropWhile p = x :: rest → r'.view = x :: rest)
      ∧ (r.src.Steady → r'.view = r.view.dropWhile p) := by
  intro k
  induction k with
  | zero =>
    intro r acc fuel hf hk hfuel
    have hv : r.view = [] := List.length_eq_zero.mp hk
    obtain ⟨f, rfl⟩ : ∃ f, fuel = f + 1 := ⟨fuel - 1, by omega⟩
    have hbuf : r.Runes = [] ∧ pendingRunes r.src.script = [] := by
      simpa [Reader.view] using hv
    refine ⟨r.exhausted, ?_, ?_, ?_, ?_, ?_⟩
    · simp [ReadTillLoop, PeekSingleRune_nil r hf hv, hv]
    · simp [Reader.Fits, Reader.exhausted, hbuf.1, hbuf.2]
    · have h := allRunes_split r.src.script
      rw [hbuf.2, List.nil_append] at h
      simp [Reader.exhausted, hbuf.1, hbuf.2, hv, ← h]
    · intro x rest h; simp [hv] at h
    · intro hs
      rw [(exhausted_view_steady r hs).1, hv]; rfl
  | succ k ih =>
    intro r acc fuel hf hk hfuel
    obtain ⟨x, rest, hv⟩ : ∃ x rest, r.view = x :: rest := by
      cases hr : r.view with
      | nil => simp [hr] at hk
      | cons x rest => exact ⟨x, rest, rfl⟩
    obtain ⟨f, rfl⟩ : ∃ f, fuel = f + 1 := ⟨fuel - 1, by omega⟩
    have ha : 1 ≤ r.available := by simp [Reader.available, hv]
    have hf1 := filled_fits r 1 hf (by norm_num)
    have hv1 : (r.filled 1).view = x :: rest := by rw [filled_view r 1 ha, hv]
    by_cases hp : p x = true
    · have ha1 : 1 ≤ (r.filled 1).available := by simp [Reader.available, hv1]
      have hv2 : ((r.filled 1).afterRead 1).view = rest := by
        rw [afterRead_view _ 1 ha1, hv1]; rfl
      have hk2 : ((r.filled 1).afterRead 1).view.length = k := by
        rw [hv2]; simpa [hv] using hk
      obtain ⟨r', h1, h2, h3, h4, h5⟩ :=
        ih ((r.filled 1).afterRead 1) (acc ++ [x]) f (afterRead_fits _ 1 hf1) hk2 (by omega)
      refine ⟨r', ?_, h2, ?_, ?_, ?_⟩
      · simp only [ReadTillLoop, PeekSingleRune_cons r hf x rest hv,
          ReadSingleRune_cons _ hf1 x rest hv1, h1, hv2, hv, hp]
        simp [List.takeWhile_cons, hp]
      · rw [h3, afterRead_allRunes _ 1 ha1, filled_allRunes r 1 ha, hv2, hv]
        simp [List.takeWhile_cons, hp, Nat.add_comm]
      · intro y rest' hd
        apply h4
        rw [hv2]
        simpa [hv, List.dropWhile_cons, hp] using hd
      · intro hs
        have hs2 : ((r.filled 1).afterRead 1).src.Steady := filled_steady _ 1 (filled_steady r 1 hs)
        rw [h5 hs2, hv2, hv]
        simp [List.dropWhile_cons, hp]
    · have hp' : p x = false := by simpa using hp
      refine ⟨r.filled 1, ?_, hf1, ?_, ?_, ?_⟩
      · simp [ReadTillLoop, PeekSingleRune_cons r hf x rest hv, hv, hp']
      · rw [filled_allRunes r 1 ha, hv]
        simp [List.takeWhile_cons, hp']
      · intro y rest' _
        rw [hv1]
        simp_all [List.dropWhile_cons]
      · intro _
        rw [hv1, hv]
        simp [List.dropWhile_cons, hp']

theorem ReadTill_run (r : Reader) (p : Rune → Bool) (hf : r.Fits) :
    ∃ r', r.ReadTill p = some (r.view.takeWhile p, r')
      ∧ r'.Fits
      ∧ r'.Runes ++ allRunes r'.src.script
          = (r.Runes ++ allRunes r.src.script).drop (r.view.takeWhile p).length
      ∧ (∀ x rest, r.view.dropWhile p = x :: rest → r'.view = x :: rest)
      ∧ (r.src.Steady → r'.view = r.view.dropWhile p) := by
  have hlen : r.view.length < r.Runes.length + r.src.script.length + 1 := by
    have := pendingRunes_length_le r.src.script
    simp only [Reader.view, List.length_append]
    omega
  have h := ReadTillLoop_spec p r.view.length r [] _ hf rfl hlen
  simpa [Reader.ReadTill] using h

theorem prefix_takeWhile (p : Rune → Bool) (l v : List Rune) (h : l <+: v)
    (hp : ∀ x ∈ l, p x = true) : l <+: v.takeWhile p := by
  obtain ⟨t, rfl⟩ := h
  rw [List.takeWhile_append_of_pos hp]
  exact List.prefix_append _ _

theorem dropWhile_head_rejected (p : Rune → Bool) : ∀ (l : List Rune) (x : Rune)
    (rest : List Rune), l.dropWhile p = x :: rest → p x = false := by
  intro l
  induction l with
  | nil => intro x rest h; simp at h
  | cons a l ih =>
    intro x rest h
    by_cases ha : p a = true
    · rw [List.dropWhile_cons_of_pos ha] at h
      exact ih x rest h
    · rw [List.dropWhile_cons_of_neg ha] at h
      have hax : a = x := (List.cons.inj h).1
      rw [← hax]
      simpa using ha

theorem view_prefix_allRunes (r : Reader) :
    r.view <+: r.Runes ++ allRunes r.src.script := by
  refine ⟨allRunes (afterError r.src.script), ?_⟩
  rw [Reader.view, List.append_assoc, ← allRunes_split]

/-! ## Reads and peeks beyond what is available, for `n` in the range of `int` -/

theorem ReadRunes_beyond_small (r : Reader) (n : Nat) (hf : r.Fits)
    (hn : n < 9223372036854775808) (hs : r.src.Steady) (hfin : r.src.final = Error.EOF)
    (ha : r.available < n) :
    ∃ r1 r2, r.ReadRunes n = some ((r.view, some Error.EOF), r1) ∧ r1.Runes = []
      ∧ r1.ReadSingleRune = some ((ReplacementChar, some Error.EOF), r2) := by
  have hst := steady_pending r.src.script hs
  have hfe : firstError r.src.script r.src.final = Error.EOF := by rw [hst.2, hfin]
  have hread := ReadRunes_err r n hf hn ha
  rw [hfe] at hread
  have hf1 : ({ src := r.exhausted.src, Runes := [] } : Reader).Fits := by
    simp [Reader.Fits]
  have hv1 : ({ src := r.exhausted.src, Runes := [] } : Reader).view = [] := by
    simp [Reader.view, Reader.exhausted, hst.1, pendingRunes]
  have hsingle := ReadSingleRune_nil _ hf1 hv1
  have hfe1 : firstError ({ src := r.exhausted.src, Runes := [] } : Reader).src.script
      ({ src := r.exhausted.src, Runes := [] } : Reader).src.final = Error.EOF := by
    simp [Reader.exhausted, hst.1, firstError, hfin]
  rw [hfe1] at hsingle
  exact ⟨_, _, hread, rfl, hsingle⟩

theorem PeekRunes_small (r : Reader) (n : Nat) (hf : r.Fits)
    (hn : n < 9223372036854775808) :
    ∃ runes err r1, r.PeekRunes n = some ((runes, err), r1)
      ∧ runes = r1.Runes.take n
      ∧ (n ≤ r.available → runes = r.view.take n ∧ runes.length = n ∧ err = none)
      ∧ (r.available < n →
          runes = r.view ∧ err = some (firstError r.src.script r.src.final)) := by
  by_cases ha : n ≤ r.available
  · refine ⟨_, _, _, PeekRunes_ok r n hf hn ha, ?_, ?_, ?_⟩
    · simp [Reader.filled, Reader.view, take_fill]
    · intro _
      exact ⟨rfl, by simp only [List.length_take]; exact Nat.min_eq_left ha, rfl⟩
    · intro h; omega
  · have ha' : r.available < n := Nat.lt_of_not_le ha
    refine ⟨_, _, _, PeekRunes_err r n hf hn ha', ?_, ?_, ?_⟩
    · have hlen : (r.Runes ++ pendingRunes r.src.script).length ≤ n := Nat.le_of_lt ha'
      simp only [Reader.exhausted, Reader.view]
      exact (List.take_of_length_le hlen).symm
    · intro h; omega
    · intro _; exact ⟨rfl, rfl⟩

/-! ## Steady sources, failed fills, and arguments beyond the range of `int` -/

theorem pendingRunes_bufferString (s : List Rune) :
    pendingRunes (s.map (fun r => Event.rune r (encodeRune r))) = s := by
  induction s with
  | nil => rfl
  | cons x xs ih => simp [pendingRunes, ih]

theorem bufferString_wellEncoded (s : List Rune) : (bufferString s).WellEncoded := by
  intro r raw h
  simp only [bufferString, List.mem_map] at h
  obtain ⟨x, _, hx⟩ := h
  injection hx with h1 h2
  rw [← h2, h1]

theorem NewReader_bufferString_view (s : List Rune) :
    (NewReader (bufferString s)).view = s := by
  simp [NewReader, bufferString, Reader.view, pendingRunes_bufferString]

theorem steady_firstError (r : Reader) (hs : r.src.Steady) :
    firstError r.src.script r.src.final = r.src.final :=
  (steady_pending r.src.script hs).2 _

theorem filled_wellEncoded (r : Reader) (n : Nat) (hw : r.src.WellEncoded) :
    (r.filled n).src.WellEncoded := by
  intro x raw h
  exact hw x raw (List.mem_of_mem_drop h)

theorem ReadRunes_steady (r : Reader) (n : Nat) (hf : r.Fits)
    (hn : n < 9223372036854775808) (hs : r.src.Steady) :
    ∃ e r1, r.ReadRunes n = some ((r.view.take n, e), r1)
      ∧ r1.view = r.view.drop n ∧ r1.Fits ∧ r1.src.Steady
      ∧ r1.src.final = r.src.final
      ∧ (r.src.WellEncoded → r1.src.WellEncoded) := by
  by_cases ha : n ≤ r.available
  · exact ⟨none, r.afterRead n, ReadRunes_ok r n hf hn ha, afterRead_view r n ha,
      afterRead_fits r n hf, filled_steady r n hs, rfl, filled_wellEncoded r n⟩
  · have ha' : r.available < n := Nat.lt_of_not_le ha
    have hst := steady_pending r.src.script hs
    have hlen : r.view.length ≤ n := Nat.le_of_lt ha'
    refine ⟨some (firstError r.src.script r.src.final),
      { src := r.exhausted.src, Runes := [] }, ?_, ?_, ?_, ?_, rfl, ?_⟩
    · rw [ReadRunes_err r n hf hn ha', List.take_of_length_le hlen]
    · rw [List.drop_eq_nil_of_le hlen]
      simp [Reader.view, Reader.exhausted, hst.1, pendingRunes]
    · simp [Reader.Fits]
    · intro e he
      simp [Reader.exhausted, hst.1] at he
    · intro _ x raw h
      simp [Reader.exhausted, hst.1] at h

theorem String_view (r : Reader) (he : firstError r.src.script r.src.final = Error.EOF)
    (hw : r.src.WellEncoded) : r.String.1 = (encodeRunes r.view, none) := by
  rw [String_fst, if_pos he, Reader.view, encodeRunes_append, encode_pending _ hw]

theorem readLoop_some (k : Nat) (r r' : Reader) (e : Error)
    (h : readLoop k r = (some e, r')) :
    r' = r.exhausted ∧ e = firstError r.src.script r.src.final
      ∧ (pendingRunes r.src.script).length < k := by
  by_cases hk : k ≤ (pendingRunes r.src.script).length
  · rw [readLoop_ok k r hk] at h
    simp at h
  · have hk' := Nat.lt_of_not_le hk
    rw [readLoop_err k r hk'] at h
    simp only [Prod.mk.injEq, Option.some.injEq] at h
    exact ⟨h.2.symm, h.1.symm, hk'⟩

theorem readFromReader_some (r r' : Reader) (n : Nat) (e : Error)
    (h : r.readFromReader n = (some e, r')) :
    r' = r.exhausted ∧ e = firstError r.src.script r.src.final := by
  unfold Reader.readFromReader at h
  by_cases hl : wrapInt (toInt n - (r.Runes.length : Int)) ≤ 0
  · simp [hl] at h
  · simp only [hl, if_false] at h
    have := readLoop_some _ r r' e h
    exact ⟨this.1, this.2.1⟩

theorem firstError_ReadRune : ∀ (es : List Event) (fin : Error) (c : Nat),
    ({ script := es.drop (pendingRunes es).length, final := fin, calls := c } : Source).ReadRune.1.2.2
      = some (firstError es fin) := by
  intro es
  induction es with
  | nil => intro fin c; simp [pendingRunes, Source.ReadRune, firstError]
  | cons e es ih =>
    intro fin c
    cases e with
    | rune r raw => simpa [pendingRunes, firstError] using ih fin c
    | fail e => simp [pendingRunes, Source.ReadRune, firstError]

theorem readFromReader_buffered (r : Reader) (n : Nat) (hf : r.Fits)
    (hle : n ≤ r.Runes.length) : r.readFromReader n = (none, r) := by
  unfold Reader.Fits at hf
  have hn : n < 9223372036854775808 := Nat.lt_of_le_of_lt hle hf
  unfold Reader.readFromReader
  simp only [deficit_small n _ hn hf]
  have : (n : Int) - (r.Runes.length : Int) ≤ 0 := by omega
  simp [this]

theorem readFromReader_huge (r : Reader) (n : Nat) (hf : r.Fits)
    (hn : n < 18446744073709551616)
    (hbig : 9223372036854775808 + r.Runes.length ≤ n) :
    r.readFromReader n = (none, r) := by
  unfold Reader.Fits at hf
  unfold Reader.readFromReader
  have : wrapInt (toInt n - (r.Runes.length : Int)) ≤ 0 := by
    unfold toInt wrapInt; omega
  simp [this]

theorem huge_panics (r : Reader) (n : Nat) (hf : r.Fits)
    (hn : n < 18446744073709551616)
    (hbig : 9223372036854775808 + r.Runes.length ≤ n) :
    r.ReadRunes n = none ∧ r.PeekRunes n = none ∧ r.Discard n = none := by
  have hfill := readFromReader_huge r n hf hn hbig
  have hlt : ¬ n ≤ r.Runes.length := by omega
  have h1 : r.ReadRunes n = none := by
    unfold Reader.ReadRunes
    rw [hfill]
    simp only [Option.isSome_none, Bool.false_eq_true, if_false, hlt]
  refine ⟨h1, ?_, ?_⟩
  · unfold Reader.PeekRunes
    rw [hfill]
    simp only [Option.isSome_none, Bool.false_eq_true, if_false, hlt]
  · unfold Reader.Discard
    rw [h1, Option.map_none']

theorem ReadAll_ok_iff (r : Reader) :
    r.src.ReadAll.1.2 = none ↔ firstError r.src.script r.src.final = Error.EOF := by
  unfold Source.ReadAll
  simp only [drain_eq]
  by_cases h : firstError r.src.script r.src.final = Error.EOF <;> simp [h]

theorem ReadAll_bytes (r : Reader) : r.src.ReadAll.1.1 = pendingBytes r.src.script := by
  unfold Source.ReadAll
  simp only [drain_eq]

theorem Reset_view (r : Reader) (s : Source) :
    (r.Reset s).view = r.Runes ++ pendingRunes s.script := rfl

theorem encodeRune_ne_nil (x : Rune) : encodeRune x ≠ [] := by
  unfold encodeRune
  split
  · simp
  · split
    · simp
    · split
      · simp
      · split <;> simp

theorem encodeRunes_ne_nil (xs : List Rune) (h : xs ≠ []) : encodeRunes xs ≠ [] := by
  cases xs with
  | nil => exact absurd rfl h
  | cons x xs =>
    intro hnil
    simp only [encodeRunes, List.append_eq_nil] at hnil
    exact encodeRune_ne_nil x hnil.1

theorem String_state (r : Reader) :
    r.String.2 = { src := { script := afterError r.src.script, final := r.src.final,
                            calls := r.src.calls },
                   Runes := r.Runes } := by
  unfold Reader.String Source.ReadAll
  simp only [drain_eq]
  split <;> rfl

theorem buffered_fill_is_free_aux (r : Reader) (n : Nat) (hf : r.Fits)
    (hle : n ≤ r.Runes.length) :
    r.ReadRunes n
      = some ((r.Runes.take n, none), { src := r.src, Runes := r.Runes.drop n }) := by
  unfold Reader.ReadRunes
  rw [readFromReader_buffered r n hf hle]
  simp only [Option.isSome_none, Bool.false_eq_true, if_false, hle, if_true]

/-! ## Claims -/

/-- C1: when `n` is at most the number of available runes (and a valid slice length),
`ReadRunes(n)` returns a nil error and exactly the first `n` runes of
`buffer ++ unread-source`, and afterwards `buffer ++ unread-source` is the old
sequence with these `n` runes dropped from the front, whether the unread source is
read up to its first error or with every later rune included. -/
theorem ReadRunes_available (r : Reader) (n : Nat) (hf : r.Fits)
    (hn : n < 9223372036854775808) (ha : n ≤ r.available) :
    r.ReadRunes n = some ((r.view.take n, none), r.afterRead n)
      ∧ (r.view.take n).length = n
      ∧ (r.afterRead n).view = r.view.drop n
      ∧ (r.afterRead n).Runes ++ allRunes (r.afterRead n).src.script
          = (r.Runes ++ allRunes r.src.script).drop n := by
  refine ⟨ReadRunes_ok r n hf hn ha, ?_, afterRead_view r n ha, afterRead_allRunes r n ha⟩
  simp only [List.length_take]
  exact Nat.min_eq_left ha

theorem ReadRunes_available_witness :
    hwPeeked.Fits ∧ 5 < 9223372036854775808 ∧ 5 ≤ hwPeeked.available
      ∧ hwPeeked.ReadRunes 5 = some ((hwPeeked.view.take 5, none), hwPeeked.afterRead 5)
      ∧ hwPeeked.view.take 5 = [72, 101, 108, 108, 111] :=
  ⟨by decide, by decide, by decide,
    (ReadRunes_available hwPeeked 5 (by decide) (by decide) (by decide)).1, by decide⟩

/-- C2: on a fresh reader over "Hello World" (eleven runes, then `io.EOF`),
`ReadRunes(1<<63)` asks for more than is available, and instead of returning the eleven
runes with `io.EOF` it panics: `int(n)` is negative, the fill returns nil without
reading, and `r.Runes[0:n]` is out of bounds. -/
theorem ReadRunes_beyond_int_panics :
    hw.src.Steady ∧ hw.src.final = Error.EOF ∧ hw.available = 11
      ∧ (hw.readFromReader 9223372036854775808).1 = none
      ∧ hw.ReadRunes 9223372036854775808 = none :=
  ⟨hw_steady, rfl, by decide, by decide, by decide⟩

/-- C3: on a fresh reader over "Hello World", `PeekRunes(1<<63)` does not return the
eleven available runes with the error of the source: the fill returns nil without
reading (`int(n)` is negative) and `r.Runes[0:n]` panics. -/
theorem PeekRunes_beyond_int_panics :
    hw.available = 11 ∧ (hw.readFromReader 9223372036854775808).1 = none
      ∧ hw.PeekRunes 9223372036854775808 = none := by
  decide

/-- C4: when `n` is at most the number of available runes (and a valid slice length),
`PeekRunes(n)` followed by `ReadRunes(n)` returns the same `n` runes twice, both with
a nil error, and the read leaves a buffer exactly `n` shorter than the peek left. -/
theorem PeekRunes_then_ReadRunes (r : Reader) (n : Nat) (hf : r.Fits)
    (hn : n < 9223372036854775808) (ha : n ≤ r.available) :
    ∃ runes r1 r2, r.PeekRunes n = some ((runes, none), r1)
      ∧ r1.ReadRunes n = some ((runes, none), r2)
      ∧ runes.length = n
      ∧ r2.Runes.length + n = r1.Runes.length := by
  have hf1 := filled_fits r n hf hn
  have ha1 : n ≤ (r.filled n).available := by rw [filled_available r n ha]; exact ha
  refine ⟨r.view.take n, r.filled n, (r.filled n).afterRead n, PeekRunes_ok r n hf hn ha, ?_,
    ?_, ?_⟩
  · rw [ReadRunes_ok _ n hf1 hn ha1, filled_view r n ha]; rfl
  · simp only [List.length_take]; exact Nat.min_eq_left ha
  · have := filled_length_ge r n ha
    simp only [Reader.afterRead, List.length_drop]
    omega

theorem PeekRunes_then_ReadRunes_witness :
    hw.Fits ∧ 4 ≤ hw.available
      ∧ ∃ runes r1 r2, hw.PeekRunes 4 = some ((runes, none), r1)
          ∧ r1.ReadRunes 4 = some ((runes, none), r2)
          ∧ runes.length = 4
          ∧ r2.Runes.length + 4 = r1.Runes.length :=
  ⟨by decide, by decide, PeekRunes_then_ReadRunes hw 4 (by decide) (by decide) (by decide)⟩

/-- C5, as stated, fails: a source that reports `io.EOF` and later delivers "a" makes
the first `PeekRunes(1)` return no rune with `io.EOF` and the second one return "a"
with a nil error. -/
theorem PeekRunes_twice_differ :
    (flaky.PeekRunes 1).map Prod.fst = some ([], some Error.EOF)
      ∧ ((flaky.PeekRunes 1).bind (fun x => x.2.PeekRunes 1)).map Prod.fst
          = some ([97], none) := by
  decide

/-- C5, amended: when the first `PeekRunes(n)` finds its `n` runes, or the source never
fails before its end and then reports one error for ever, two consecutive calls of
`PeekRunes(n)` (`n` in the range of `int`) return the same runes and the same error. -/
theorem PeekRunes_idempotent (r : Reader) (n : Nat) (hf : r.Fits)
    (hn : n < 9223372036854775808) (h : n ≤ r.available ∨ r.src.Steady) :
    ∃ res r1 r2, r.PeekRunes n = some (res, r1) ∧ r1.PeekRunes n = some (res, r2) := by
  by_cases ha : n ≤ r.available
  · have hf1 := filled_fits r n hf hn
    have ha1 : n ≤ (r.filled n).available := by rw [filled_available r n ha]; exact ha
    refine ⟨_, _, (r.filled n).filled n, PeekRunes_ok r n hf hn ha, ?_⟩
    rw [PeekRunes_ok _ n hf1 hn ha1, filled_view r n ha]
  · have hs : r.src.Steady := by
      rcases h with h | h
      · exact absurd h ha
      · exact h
    have ha' : r.available < n := Nat.lt_of_not_le ha
    obtain ⟨hv, hscr, herr⟩ := exhausted_view_steady r hs
    have hf1 := exhausted_fits r n hn ha'
    have ha1 : r.exhausted.available < n := by
      simp only [Reader.available, hv]; exact ha'
    refine ⟨_, _, r.exhausted.exhausted, PeekRunes_err r n hf hn ha', ?_⟩
    rw [PeekRunes_err _ n hf1 hn ha1, hv, herr]

theorem PeekRunes_idempotent_witness :
    hw.Fits ∧ (12 ≤ hw.available ∨ hw.src.Steady)
      ∧ ∃ res r1 r2, hw.PeekRunes 12 = some (res, r1) ∧ r1.PeekRunes 12 = some (res, r2) :=
  have hs : hw.src.Steady := hw_steady
  ⟨by decide, Or.inr hs, PeekRunes_idempotent hw 12 (by decide) (by decide) (Or.inr hs)⟩

/-- C6, as stated, fails twice. A peek that runs into a passing `io.EOF` of the source
swallows it: `ReadRunes(1)` alone returns no rune with `io.EOF`, after `PeekRunes(1)`
it returns "a" with a nil error. And a peeked rune is re-encoded: over the invalid byte
`0xFF`, `String()` alone returns that byte, after `PeekRunes(1)` it returns the three
bytes of U+FFFD. -/
theorem peek_changes_read :
    (flaky.ReadRunes 1).map Prod.fst = some ([], some Error.EOF)
      ∧ ((flaky.PeekRunes 1).bind (fun x => x.2.ReadRunes 1)).map Prod.fst
          = some ([97], none)
      ∧ garbled.String.1 = ([255], none)
      ∧ (garbled.PeekRunes 1).map (fun x => x.2.String.1) = some ([239, 191, 189], none) := by
  decide

/-- C6, amended: for `n` and `m` in the range of `int`, when `PeekRunes(n)` (or
`PeekSingleRune`) finds its runes, or the source never fails before its end and then
reports one error for ever, `ReadRunes(m)` after the peek returns the runes and the
error that `ReadRunes(m)` returns without it; and when every rune of the source comes
with its UTF-8 encoding as raw bytes, `String()` after the peek returns the text and
the error that `String()` returns without it. -/
theorem peek_keeps_reads (r : Reader) (n m : Nat) (hf : r.Fits)
    (hn : n < 9223372036854775808) (hm : m < 9223372036854775808) :
    ((n ≤ r.available ∨ r.src.Steady) →
        ∃ pres r1 res r2 r3, r.PeekRunes n = some (pres, r1)
          ∧ r.ReadRunes m = some (res, r2) ∧ r1.ReadRunes m = some (res, r3)
          ∧ (r.src.WellEncoded → r1.String.1 = r.String.1))
      ∧ ((1 ≤ r.available ∨ r.src.Steady) →
        ∃ pres r1 res r2 r3, r.PeekSingleRune = some (pres, r1)
          ∧ r.ReadRunes m = some (res, r2) ∧ r1.ReadRunes m = some (res, r3)
          ∧ (r.src.WellEncoded → r1.String.1 = r.String.1)) := by
  constructor
  · intro h
    obtain ⟨pres, r1, hp, _, hf1, hv, he, hs⟩ := fill_keeps r n hf hn h
    obtain ⟨res, r2, r3, h2, h3⟩ := same_ReadRunes r r1 m hf hf1 hm hv he
    exact ⟨pres, r1, res, r2, r3, hp, h2, h3, hs⟩
  · intro h
    obtain ⟨pres, r1, hp, hne, hf1, hv, he, hs⟩ := fill_keeps r 1 hf (by norm_num) h
    obtain ⟨x, hx⟩ := PeekSingleRune_of_PeekRunes r r1 pres hp hne
    obtain ⟨res, r2, r3, h2, h3⟩ := same_ReadRunes r r1 m hf hf1 hm hv he
    exact ⟨x, r1, res, r2, r3, hx, h2, h3, hs⟩

theorem peek_keeps_reads_witness :
    hwPeeked.Fits ∧ 5 ≤ hwPeeked.available
      ∧ ∃ pres r1 res r2 r3, hwPeeked.PeekRunes 5 = some (pres, r1)
          ∧ hwPeeked.ReadRunes 4 = some (res, r2) ∧ r1.ReadRunes 4 = some (res, r3)
          ∧ (hwPeeked.src.WellEncoded → r1.String.1 = hwPeeked.String.1) :=
  ⟨by decide, by decide,
    (peek_keeps_reads hwPeeked 5 4 (by decide) (by decide) (by decide)).1
      (Or.inl (by decide))⟩

/-- C7: `ReadTill(p)` returns, without an error result, the longest prefix of
`buffer ++ unread-source` (the runes available before the first error of the source)
all of whose runes satisfy `p`: a prefix, all of it satisfying `p`, and at least as long
as any other such prefix. -/
theorem ReadTill_longest_prefix (r : Reader) (p : Rune → Bool) (hf : r.Fits) :
    ∃ runes r', r.ReadTill p = some (runes, r')
      ∧ runes = r.view.takeWhile p
      ∧ runes <+: r.view
      ∧ (∀ x ∈ runes, p x = true)
      ∧ (∀ l, l <+: r.view → (∀ x ∈ l, p x = true) → l <+: runes) := by
  obtain ⟨r', h, _⟩ := ReadTill_run r p hf
  exact ⟨_, r', h, rfl, List.takeWhile_prefix p, fun x hx => List.mem_takeWhile_imp hx,
    fun l hl hp => prefix_takeWhile p l r.view hl hp⟩

theorem ReadTill_longest_prefix_witness :
    hwPeeked.Fits
      ∧ (hwPeeked.ReadTill isLetter).map Prod.fst = some [72, 101, 108, 108, 111]
      ∧ ∃ runes r', hwPeeked.ReadTill isLetter = some (runes, r')
          ∧ runes = hwPeeked.view.takeWhile isLetter
          ∧ runes <+: hwPeeked.view
          ∧ (∀ x ∈ runes, isLetter x = true)
          ∧ (∀ l, l <+: hwPeeked.view → (∀ x ∈ l, isLetter x = true) → l <+: runes) :=
  ⟨by decide, by decide, ReadTill_longest_prefix hwPeeked isLetter (by decide)⟩

/-- C8, as stated, fails: over a source that delivers "a", reports `io.EOF` and later
delivers "b", `ReadTill(isLetter)` returns "a" and uses up the `io.EOF`; the available
sequence was "a", yet afterwards it is "b", not the old one without the returned prefix,
and the next `PeekSingleRune` returns "b", a rune that satisfies the matcher. -/
theorem ReadTill_then_later_rune :
    resumed.view = [97]
      ∧ (resumed.ReadTill isLetter).map Prod.fst = some [97]
      ∧ (resumed.ReadTill isLetter).map (fun x => x.2.view) = some [98]
      ∧ ((resumed.ReadTill isLetter).bind (fun x => x.2.PeekSingleRune)).map Prod.fst
          = some (98, none)
      ∧ isLetter 98 = true := by
  decide

/-- C8, amended: when the source never fails before its end and then reports one error
for ever, or a rune that fails `p` is available before the first error of the source,
`ReadTill(p)` consumes only the matching prefix it returns: every rune it returns
satisfies `p`, the runes held by the buffer and the source afterwards are the original
ones without that prefix, the sequence `buffer ++ unread-source` afterwards is the
original one without that prefix, and if a rune remains in it, that rune fails `p` and
is what the next `PeekSingleRune` and the next `ReadSingleRune` return. -/
theorem ReadTill_keeps_rejected (r : Reader) (p : Rune → Bool) (hf : r.Fits)
    (h : r.src.Steady ∨ r.view.dropWhile p ≠ []) :
    ∃ runes r', r.ReadTill p = some (runes, r')
      ∧ runes = r.view.takeWhile p
      ∧ (∀ x ∈ runes, p x = true)
      ∧ r.Runes ++ allRunes r.src.script = runes ++ (r'.Runes ++ allRunes r'.src.script)
      ∧ r.view = runes ++ r'.view
      ∧ (∀ x rest, r'.view = x :: rest →
          p x = false
            ∧ (∃ r1, r'.PeekSingleRune = some ((x, none), r1))
            ∧ ∃ r2, r'.ReadSingleRune = some ((x, none), r2)) := by
  obtain ⟨r', hrun, hf', hall, hrej, hst⟩ := ReadTill_run r p hf
  have hview : r'.view = r.view.dropWhile p := by
    rcases h with hs | hne
    · exact hst hs
    · obtain ⟨x, rest, hx⟩ := List.exists_cons_of_ne_nil hne
      rw [hrej x rest hx, hx]
  refine ⟨_, r', hrun, rfl, fun x hx => List.mem_takeWhile_imp hx, ?_, ?_, ?_⟩
  · rw [hall]
    have hpre : r.view.takeWhile p <+: r.Runes ++ allRunes r.src.script :=
      (List.takeWhile_prefix p).trans (view_prefix_allRunes r)
    exact (List.prefix_iff_eq_append.mp hpre).symm
  · rw [hview, List.takeWhile_append_dropWhile]
  · intro x rest hx
    have hd : r.view.dropWhile p = x :: rest := by rw [← hview]; exact hx
    exact ⟨dropWhile_head_rejected p _ x rest hd, ⟨_, PeekSingleRune_cons r' hf' x rest hx⟩,
      ⟨_, ReadSingleRune_cons r' hf' x rest hx⟩⟩

theorem ReadTill_keeps_rejected_witness :
    hw.Fits ∧ hw.src.Steady
      ∧ (hw.ReadTill isLetter).map (fun x => x.2.view) = some [32, 87, 111, 114, 108, 100]
      ∧ ((hw.ReadTill isLetter).bind (fun x => x.2.PeekSingleRune)).map Prod.fst
          = some (32, none)
      ∧ ∃ runes r', hw.ReadTill isLetter = some (runes, r')
          ∧ runes = hw.view.takeWhile isLetter
          ∧ (∀ x ∈ runes, isLetter x = true)
          ∧ hw.Runes ++ allRunes hw.src.script = runes ++ (r'.Runes ++ allRunes r'.src.script)
          ∧ hw.view = runes ++ r'.view
          ∧ (∀ x rest, r'.view = x :: rest →
              isLetter x = false
                ∧ (∃ r1, r'.PeekSingleRune = some ((x, none), r1))
                ∧ ∃ r2, r'.ReadSingleRune = some ((x, none), r2)) :=
  ⟨by decide, hw_steady, by decide, by decide,
    ReadTill_keeps_rejected hw isLetter (by decide) (Or.inl hw_steady)⟩

/-- C9, as stated, fails: over a source that reports `io.EOF` once and then delivers
"a", `IsAtEnd()` returns true, having used up the `io.EOF`, and the `PeekSingleRune`
and `ReadSingleRune` made next return "a" with a nil error. -/
theorem IsAtEnd_then_rune :
    flaky.IsAtEnd.map Prod.fst = some true
      ∧ (flaky.IsAtEnd.bind (fun x => x.2.PeekSingleRune)).map Prod.fst = some (97, none)
      ∧ (flaky.IsAtEnd.bind (fun x => x.2.ReadSingleRune)).map Prod.fst
          = some (97, none) := by
  decide

/-- C9, amended: when a rune is available, or the source never fails before its end and
then reports one error for ever, `IsAtEnd()` returns normally, leaves the reader in the
state its `PeekSingleRune` leaves it in, with the sequence `buffer ++ unread-source`
unchanged, and returns true exactly when the `PeekSingleRune` made next, and the
`ReadSingleRune` made next, return `io.EOF`; it returns false when a rune is
available. -/
theorem IsAtEnd_then_peek (r : Reader) (hf : r.Fits)
    (h : 1 ≤ r.available ∨ r.src.Steady) :
    ∃ b r1, r.IsAtEnd = some (b, r1)
      ∧ (∃ res, r.PeekSingleRune = some (res, r1) ∧ (b = true ↔ res.2 = some Error.EOF))
      ∧ r1.view = r.view
      ∧ (∃ res r2, r1.PeekSingleRune = some (res, r2) ∧ (b = true ↔ res.2 = some Error.EOF))
      ∧ (∃ res r3, r1.ReadSingleRune = some (res, r3) ∧ (b = true ↔ res.2 = some Error.EOF))
      ∧ (1 ≤ r.available → b = false)
      ∧ (b = true ↔ r.available = 0 ∧ firstError r.src.script r.src.final = Error.EOF) := by
  cases hv : r.view with
  | cons x rest =>
    have ha : 1 ≤ r.available := by simp [Reader.available, hv]
    have hp := PeekSingleRune_cons r hf x rest hv
    have hf1 := filled_fits r 1 hf (by norm_num)
    have hv1 : (r.filled 1).view = x :: rest := by rw [filled_view r 1 ha, hv]
    refine ⟨false, r.filled 1, ?_, ⟨_, hp, by simp⟩, hv1,
      ⟨_, _, PeekSingleRune_cons _ hf1 x rest hv1, by simp⟩,
      ⟨_, _, ReadSingleRune_cons _ hf1 x rest hv1, by simp⟩, fun _ => rfl, ?_⟩
    · simp [Reader.IsAtEnd, hp]
    · simp [Reader.available, hv]
  | nil =>
    have hs : r.src.Steady := by
      rcases h with h | h
      · simp [Reader.available, hv] at h
      · exact h
    have hp := PeekSingleRune_nil r hf hv
    obtain ⟨hve, _, hfe⟩ := exhausted_view_steady r hs
    have hv1 : r.exhausted.view = [] := by rw [hve, hv]
    have hf1 : r.exhausted.Fits := exhausted_fits r 1 (by norm_num)
      (by simp [Reader.available, hv])
    have hp1 := PeekSingleRune_nil _ hf1 hv1
    have hr1 := ReadSingleRune_nil _ hf1 hv1
    rw [hfe] at hp1 hr1
    refine ⟨decide (some (firstError r.src.script r.src.final) = some Error.EOF), r.exhausted,
      ?_, ⟨_, hp, by simp⟩, hv1, ⟨_, _, hp1, by simp⟩, ⟨_, _, hr1, by simp⟩, ?_, ?_⟩
    · simp [Reader.IsAtEnd, hp]
    · intro h1; simp [Reader.available, hv] at h1
    · simp [Reader.available, hv]

theorem IsAtEnd_then_peek_witness :
    hw.Fits ∧ (1 ≤ hw.available ∨ hw.src.Steady)
      ∧ hw.IsAtEnd.map Prod.fst = some false
      ∧ (NewReader (bufferString [])).IsAtEnd.map Prod.fst = some true
      ∧ ((NewReader (bufferString [])).IsAtEnd.bind
            (fun x => x.2.PeekSingleRune)).map Prod.fst = some (65533, some Error.EOF)
      ∧ ∃ b r1, hw.IsAtEnd = some (b, r1)
          ∧ (∃ res, hw.PeekSingleRune = some (res, r1) ∧ (b = true ↔ res.2 = some Error.EOF))
          ∧ r1.view = hw.view
          ∧ (∃ res r2, r1.PeekSingleRune = some (res, r2)
              ∧ (b = true ↔ res.2 = some Error.EOF))
          ∧ (∃ res r3, r1.ReadSingleRune = some (res, r3)
              ∧ (b = true ↔ res.2 = some Error.EOF))
          ∧ (1 ≤ hw.available → b = false)
          ∧ (b = true ↔ hw.available = 0
              ∧ firstError hw.src.script hw.src.final = Error.EOF) :=
  ⟨by decide, Or.inl (by decide), by decide, by decide, by decide,
    IsAtEnd_then_peek hw (by decide) (Or.inl (by decide))⟩

/-- C10: when a rune is available, `ReadSingleRune` and `PeekSingleRune` return the first
rune of `buffer ++ unread-source` with a nil error, the read removing it and the peek
keeping it; when none is available both return `unicode.ReplacementChar` (U+FFFD) with
the error of the source, which is its final error (`io.EOF` for a buffer) at the end of
input. -/
theorem single_rune_results (r : Reader) (hf : r.Fits) :
    (∀ x rest, r.view = x :: rest →
        ∃ r1 r2, r.ReadSingleRune = some ((x, none), r1) ∧ r1.view = rest
          ∧ r.PeekSingleRune = some ((x, none), r2) ∧ r2.view = x :: rest)
      ∧ (r.view = [] →
        ∃ r1 r2,
          r.ReadSingleRune
              = some ((ReplacementChar, some (firstError r.src.script r.src.final)), r1)
          ∧ r.PeekSingleRune
              = some ((ReplacementChar, some (firstError r.src.script r.src.final)), r2))
      ∧ ReplacementChar = 0xFFFD
      ∧ (r.src.script = [] → firstError r.src.script r.src.final = r.src.final) := by
  refine ⟨?_, ?_, rfl, ?_⟩
  · intro x rest hv
    have ha : 1 ≤ r.available := by simp [Reader.available, hv]
    refine ⟨r.afterRead 1, r.filled 1, ReadSingleRune_cons r hf x rest hv, ?_,
      PeekSingleRune_cons r hf x rest hv, ?_⟩
    · rw [afterRead_view r 1 ha, hv]; rfl
    · rw [filled_view r 1 ha, hv]
  · intro hv
    exact ⟨_, _, ReadSingleRune_nil r hf hv, PeekSingleRune_nil r hf hv⟩
  · intro h
    rw [h]; rfl

theorem single_rune_results_witness :
    hw.Fits
      ∧ hw.ReadSingleRune.map Prod.fst = some (72, none)
      ∧ (NewReader (bufferString [])).PeekSingleRune.map Prod.fst
          = some (65533, some Error.EOF)
      ∧ ∃ r1 r2, hw.ReadSingleRune = some ((72, none), r1)
          ∧ r1.view = [101, 108, 108, 111, 32, 87, 111, 114, 108, 100]
          ∧ hw.PeekSingleRune = some ((72, none), r2)
          ∧ r2.view = 72 :: [101, 108, 108, 111, 32, 87, 111, 114, 108, 100] :=
  ⟨by decide, by decide, by decide,
    (single_rune_results hw (by decide)).1 72 [101, 108, 108, 111, 32, 87, 111, 114, 108, 100]
      (by decide)⟩

/-- C11, as stated, fails: over a source that delivers "a" and then fails to
decode, `Discard(3)` exceeds the one rune available and returns 1 with the decode
error of the source, not with `io.EOF`. -/
theorem Discard_error_not_EOF :
    broken.available = 1
      ∧ (broken.Discard 3).map Prod.fst = some (1, some (Error.other 1)) := by
  decide

/-- C11, amended: `Discard(n)` is `ReadRunes(n)` with the runes replaced by their
number: it panics exactly when `ReadRunes(n)` does, and otherwise returns the length of
the runes `ReadRunes(n)` returns, the same error and the same reader state. For `n` in
the range of `int` this number is `n` with a nil error when `n` runes are available, and
else the number available with the error of the source, which is `io.EOF` for a source
that ends so. -/
theorem Discard_as_ReadRunes (r : Reader) (n : Nat) :
    (r.ReadRunes n = none → r.Discard n = none)
      ∧ (∀ runes err r1, r.ReadRunes n = some ((runes, err), r1) →
          r.Discard n = some ((runes.length, err), r1))
      ∧ (r.Fits → n < 9223372036854775808 →
          ∃ runes err r1, r.ReadRunes n = some ((runes, err), r1)
            ∧ r.Discard n = some ((min n r.available, err), r1)
            ∧ (n ≤ r.available → err = none)
            ∧ (r.available < n → err = some (firstError r.src.script r.src.final))
            ∧ (r.available < n → r.src.Steady → r.src.final = Error.EOF →
                err = some Error.EOF)) := by
  refine ⟨?_, ?_, ?_⟩
  · intro h
    unfold Reader.Discard
    rw [h, Option.map_none']
  · intro runes err r1 h
    unfold Reader.Discard
    rw [h, Option.map_some']
  · intro hf hn
    by_cases ha : n ≤ r.available
    · have hread := ReadRunes_ok r n hf hn ha
      refine ⟨_, _, _, hread, ?_, fun _ => rfl, fun h => absurd ha (Nat.not_le_of_lt h),
        fun h => absurd ha (Nat.not_le_of_lt h)⟩
      unfold Reader.Discard
      rw [hread, Option.map_some']
      simp only [List.length_take, Reader.available]
    · have ha' : r.available < n := Nat.lt_of_not_le ha
      have hread := ReadRunes_err r n hf hn ha'
      refine ⟨_, _, _, hread, ?_, fun h => absurd h ha, fun _ => rfl, ?_⟩
      · unfold Reader.Discard
        rw [hread, Option.map_some']
        simp only [Reader.available] at ha' ⊢
        rw [Nat.min_eq_right (Nat.le_of_lt ha')]
      · intro _ hs hfin
        rw [steady_firstError r hs, hfin]

theorem Discard_as_ReadRunes_witness :
    hw.Fits ∧ hw.Discard 1 = (hw.ReadRunes 1).map (fun x => ((1, x.1.2), x.2))
      ∧ (hw.Discard 12).map Prod.fst = some (11, some Error.EOF)
      ∧ ∃ runes err r1, hw.ReadRunes 12 = some ((runes, err), r1)
          ∧ hw.Discard 12 = some ((min 12 hw.available, err), r1)
          ∧ (12 ≤ hw.available → err = none)
          ∧ (hw.available < 12 → err = some (firstError hw.src.script hw.src.final))
          ∧ (hw.available < 12 → hw.src.Steady → hw.src.final = Error.EOF →
              err = some Error.EOF) :=
  ⟨by decide, by decide, by decide,
    (Discard_as_ReadRunes hw 12).2.2 (by decide) (by decide)⟩

/-- C12: when the bulk drain of the source succeeds, `String()` returns the buffered
runes, encoded in order, followed by every byte still unread in the source, which is
the text of all unread runes when the source holds the UTF-8 encodings of its runes; in
particular after `ReadRunes(k)` on a fresh reader over the text `s` it returns `s`
without its first `k` runes, the empty string when `k` is the length of `s`. -/
theorem String_returns_unread (r : Reader) (hd : r.src.ReadAll.1.2 = none) :
    r.String.1 = (encodeRunes r.Runes ++ r.src.ReadAll.1.1, none)
      ∧ r.src.ReadAll.1.1 = pendingBytes r.src.script
      ∧ (r.src.WellEncoded →
          r.String.1 = (encodeRunes (r.Runes ++ pendingRunes r.src.script), none))
      ∧ (∀ (s : List Rune) (k : Nat), k < 9223372036854775808 →
          ∃ res r1, (NewReader (bufferString s)).ReadRunes k = some (res, r1)
            ∧ r1.String.1 = (encodeRunes (s.drop k), none))
      ∧ (∀ (s : List Rune), s.length < 9223372036854775808 →
          ∃ res r1, (NewReader (bufferString s)).ReadRunes s.length = some (res, r1)
            ∧ r1.String.1 = ([], none)) := by
  have he : firstError r.src.script r.src.final = Error.EOF := (ReadAll_ok_iff r).mp hd
  have hfresh : ∀ (s : List Rune) (k : Nat), k < 9223372036854775808 →
      ∃ res r1, (NewReader (bufferString s)).ReadRunes k = some (res, r1)
        ∧ r1.String.1 = (encodeRunes (s.drop k), none) := by
    intro s k hk
    have hf0 : (NewReader (bufferString s)).Fits := by simp [Reader.Fits, NewReader]
    obtain ⟨e, r1, hread, hv, _, hs1, hfin, hwe⟩ :=
      ReadRunes_steady (NewReader (bufferString s)) k hf0 hk (bufferString_steady s)
    refine ⟨_, r1, hread, ?_⟩
    have he1 : firstError r1.src.script r1.src.final = Error.EOF := by
      rw [steady_firstError r1 hs1, hfin]; rfl
    rw [String_view r1 he1 (hwe (bufferString_wellEncoded s)), hv,
      NewReader_bufferString_view]
  refine ⟨?_, ReadAll_bytes r, ?_, hfresh, ?_⟩
  · rw [String_fst, if_pos he, ReadAll_bytes]
  · intro hw
    exact String_view r he hw
  · intro s hs
    obtain ⟨res, r1, h1, h2⟩ := hfresh s s.length hs
    refine ⟨res, r1, h1, ?_⟩
    rw [h2, List.drop_length]; rfl

theorem String_returns_unread_witness :
    hwPeeked.src.ReadAll.1.2 = none
      ∧ hwPeeked.String.1
          = ([72, 101, 108, 108, 111, 32, 87, 111, 114, 108, 100], none)
      ∧ hwPeeked.String.1 = (encodeRunes hwPeeked.Runes ++ hwPeeked.src.ReadAll.1.1, none) :=
  ⟨by decide, by decide, (String_returns_unread hwPeeked (by decide)).1⟩

/-- C13: `Reset(newSource)` replaces the source and keeps the buffer, so reads and peeks
after it return the previously buffered runes followed by the runes of the new source;
on a reader with an empty buffer `PeekRunes(k)` after `Reset` returns the first `k`
runes of the new source. -/
theorem Reset_keeps_buffer (r : Reader) (s : Source) (k : Nat) (hf : r.Fits)
    (hk : k < 9223372036854775808) :
    (r.Reset s).Runes = r.Runes ∧ (r.Reset s).src = s
      ∧ (∃ err r1, (r.Reset s).PeekRunes k
          = some (((r.Runes ++ pendingRunes s.script).take k, err), r1))
      ∧ (∃ err r2, (r.Reset s).ReadRunes k
          = some (((r.Runes ++ pendingRunes s.script).take k, err), r2))
      ∧ (r.Runes = [] → k ≤ (pendingRunes s.script).length →
          ∃ r1, (r.Reset s).PeekRunes k = some (((pendingRunes s.script).take k, none), r1)) := by
  have hf' : (r.Reset s).Fits := hf
  have hv := Reset_view r s
  refine ⟨rfl, rfl, ?_, ?_, ?_⟩
  · by_cases ha : k ≤ (r.Reset s).available
    · exact ⟨_, _, by rw [PeekRunes_ok _ k hf' hk ha, hv]⟩
    · have ha' := Nat.lt_of_not_le ha
      have hlen : (r.Runes ++ pendingRunes s.script).length ≤ k := by
        rw [← hv]; exact Nat.le_of_lt ha'
      exact ⟨_, _, by rw [PeekRunes_err _ k hf' hk ha', hv, List.take_of_length_le hlen]⟩
  · by_cases ha : k ≤ (r.Reset s).available
    · exact ⟨_, _, by rw [ReadRunes_ok _ k hf' hk ha, hv]⟩
    · have ha' := Nat.lt_of_not_le ha
      have hlen : (r.Runes ++ pendingRunes s.script).length ≤ k := by
        rw [← hv]; exact Nat.le_of_lt ha'
      exact ⟨_, _, by rw [ReadRunes_err _ k hf' hk ha', hv, List.take_of_length_le hlen]⟩
  · intro hnil hle
    have ha : k ≤ (r.Reset s).available := by
      simp only [Reader.available, hv, hnil, List.nil_append]; exact hle
    exact ⟨_, by rw [PeekRunes_ok _ k hf' hk ha, hv, hnil, List.nil_append]⟩

theorem Reset_keeps_buffer_witness :
    hw.Fits
      ∧ ((hw.Reset newSrc).PeekRunes 3).map Prod.fst = some ([78, 101, 119], none)
      ∧ ((hwPeeked.Reset newSrc).PeekRunes 5).map Prod.fst
          = some ([72, 101, 108, 78, 101], none)
      ∧ (hw.Reset newSrc).Runes = hw.Runes ∧ (hw.Reset newSrc).src = newSrc :=
  have h := Reset_keeps_buffer hw newSrc 3 (by decide) (by decide)
  ⟨by decide, by decide, by decide, h.1, h.2.1⟩

/-- C14: on a fresh reader over "Hello World", for the `uint` argument `1<<63` (whose
`int` conversion is negative), `ReadRunes`, `PeekRunes` and `Discard` all panic on the
slice expression `r.Runes[0:n]`; the same holds for the largest `uint`. -/
theorem huge_argument_panics :
    hw.ReadRunes 9223372036854775808 = none
      ∧ hw.PeekRunes 9223372036854775808 = none
      ∧ hw.Discard 9223372036854775808 = none
      ∧ hw.ReadRunes 18446744073709551615 = none
      ∧ toInt 9223372036854775808 = -9223372036854775808 := by
  decide

/-- C15, as stated, fails: on a fresh reader over "Hello World" the first
`PeekRunes(12)` makes twelve `ReadRune` calls (eleven runes and `io.EOF`), and the
second one, still one rune short, calls `ReadRune` a thirteenth time. -/
theorem second_peek_calls_again :
    (hw.PeekRunes 12).map (fun x => x.2.src.calls) = some 12
      ∧ ((hw.PeekRunes 12).bind (fun x => x.2.PeekRunes 12)).map (fun x => x.2.src.calls)
          = some 13 := by
  decide

/-- C15, amended: when the first `PeekRunes(n)` finds its `n` runes (`n` in the range
of `int`), the second `PeekRunes(n)` returns the same result, its fill makes no
`ReadRune` call, and it leaves the source and the buffer as they were. -/
theorem second_peek_is_free (r : Reader) (n : Nat) (hf : r.Fits)
    (hn : n < 9223372036854775808) (ha : n ≤ r.available) :
    ∃ res r1, r.PeekRunes n = some (res, r1)
      ∧ r1.PeekRunes n = some (res, r1)
      ∧ r1.readFromReader n = (none, r1) := by
  have hlen := filled_length_ge r n ha
  have hfill := readFromReader_buffered (r.filled n) n (filled_fits r n hf hn) hlen
  refine ⟨_, r.filled n, PeekRunes_ok r n hf hn ha, ?_, hfill⟩
  unfold Reader.PeekRunes
  rw [hfill]
  simp only [Option.isSome_none, Bool.false_eq_true, if_false, hlen, if_true]
  simp [Reader.filled, Reader.view, take_fill]

theorem second_peek_is_free_witness :
    hw.Fits ∧ 11 ≤ hw.available
      ∧ ((hw.PeekRunes 11).bind (fun x => x.2.PeekRunes 11)).map (fun x => x.2.src.calls)
          = some 11
      ∧ ∃ res r1, hw.PeekRunes 11 = some (res, r1)
          ∧ r1.PeekRunes 11 = some (res, r1)
          ∧ r1.readFromReader 11 = (none, r1) :=
  ⟨by decide, by decide, by decide,
    second_peek_is_free hw 11 (by decide) (by decide) (by decide)⟩

/-- C16: when `n` is at most the length of the buffer, `readFromReader(n)` returns nil
and leaves the buffer and the source (its count of `ReadRune` calls included) as they
were, and `PeekRunes(n)` and `ReadRunes(n)` return the first `n` buffered runes. -/
theorem buffered_fill_is_free (r : Reader) (n : Nat) (hf : r.Fits)
    (hle : n ≤ r.Runes.length) :
    r.readFromReader n = (none, r)
      ∧ r.PeekRunes n = some ((r.Runes.take n, none), r)
      ∧ r.ReadRunes n
          = some ((r.Runes.take n, none), { src := r.src, Runes := r.Runes.drop n }) := by
  have hfill := readFromReader_buffered r n hf hle
  refine ⟨hfill, ?_, ?_⟩
  · unfold Reader.PeekRunes
    rw [hfill]
    simp only [Option.isSome_none, Bool.false_eq_true, if_false, hle, if_true]
  · unfold Reader.ReadRunes
    rw [hfill]
    simp only [Option.isSome_none, Bool.false_eq_true, if_false, hle, if_true]

theorem buffered_fill_is_free_witness :
    hwPeeked.Fits ∧ 2 ≤ hwPeeked.Runes.length
      ∧ hwPeeked.readFromReader 2 = (none, hwPeeked)
      ∧ hwPeeked.PeekRunes 2 = some ((hwPeeked.Runes.take 2, none), hwPeeked)
      ∧ hwPeeked.Runes.take 2 = [72, 101] :=
  have h := buffered_fill_is_free hwPeeked 2 (by decide) (by decide)
  ⟨by decide, by decide, h.1, h.2.1, by decide⟩

/-- C17: when `readFromReader(n)` returns an error, the source had delivered the `j`
runes it yields before its first error; the buffer afterwards is the old buffer
followed by exactly these runes in source order, the error is the one the call number
`j + 1` returned, and exactly `j + 1` `ReadRune` calls were made: none after the
failing one. -/
theorem failed_fill_keeps_runes (r r' : Reader) (n : Nat) (e : Error)
    (h : r.readFromReader n = (some e, r')) :
    r'.Runes = r.Runes ++ pendingRunes r.src.script
      ∧ r'.src.calls = r.src.calls + (pendingRunes r.src.script).length + 1
      ∧ r'.src.script = afterError r.src.script
      ∧ ({ script := r.src.script.drop (pendingRunes r.src.script).length,
           final := r.src.final,
           calls := r.src.calls + (pendingRunes r.src.script).length } : Source).ReadRune.1.2.2
          = some e := by
  obtain ⟨h1, h2⟩ := readFromReader_some r r' n e h
  rw [h1, h2]
  exact ⟨rfl, rfl, rfl, firstError_ReadRune _ _ _⟩

theorem failed_fill_keeps_runes_witness :
    hwPeeked.readFromReader 12 = (some Error.EOF, hwPeeked.exhausted)
      ∧ hwPeeked.exhausted.Runes = [72, 101, 108, 108, 111, 32, 87, 111, 114, 108, 100]
      ∧ hwPeeked.exhausted.Runes = hwPeeked.Runes ++ pendingRunes hwPeeked.src.script
      ∧ hwPeeked.exhausted.src.calls
          = hwPeeked.src.calls + (pendingRunes hwPeeked.src.script).length + 1 :=
  have h := failed_fill_keeps_runes hwPeeked hwPeeked.exhausted 12 Error.EOF (by decide)
  ⟨by decide, by decide, h.1, h.2.1⟩

/-- C18: when the fill fails, its error is the very error the failing `ReadRune` call
returned; `PeekRunes`, `ReadRunes` and `Discard` return it unchanged together with the
old buffer followed by the runes pulled before the failure, and `PeekSingleRune` and
`ReadSingleRune` return it with U+FFFD; `IsAtEnd()` is true exactly when this error is
`io.EOF`, so false for a decode failure. -/
theorem source_error_unchanged (r r' : Reader) (n : Nat) (e : Error)
    (h : r.readFromReader n = (some e, r')) :
    ({ script := r.src.script.drop (pendingRunes r.src.script).length,
       final := r.src.final,
       calls := r.src.calls + (pendingRunes r.src.script).length } : Source).ReadRune.1.2.2
        = some e
      ∧ r.PeekRunes n = some ((r.Runes ++ pendingRunes r.src.script, some e), r')
      ∧ r.ReadRunes n
          = some ((r.Runes ++ pendingRunes r.src.script, some e),
              { src := r'.src, Runes := [] })
      ∧ r.Discard n
          = some (((r.Runes ++ pendingRunes r.src.script).length, some e),
              { src := r'.src, Runes := [] })
      ∧ (n = 1 →
          r.PeekSingleRune = some ((ReplacementChar, some e), r')
            ∧ r.ReadSingleRune
                = some ((ReplacementChar, some e), { src := r'.src, Runes := [] })
            ∧ r.IsAtEnd = some (decide (e = Error.EOF), r')
            ∧ (e ≠ Error.EOF → r.IsAtEnd = some (false, r'))) := by
  obtain ⟨h1, h2⟩ := readFromReader_some r r' n e h
  have hbuf : r'.Runes = r.Runes ++ pendingRunes r.src.script := by rw [h1]; rfl
  have hpeek : r.PeekRunes n = some ((r.Runes ++ pendingRunes r.src.script, some e), r') := by
    unfold Reader.PeekRunes
    rw [h]
    simp only [Option.isSome_some, if_true, hbuf]
  have hread : r.ReadRunes n = some ((r.Runes ++ pendingRunes r.src.script, some e),
      { src := r'.src, Runes := [] }) := by
    unfold Reader.ReadRunes
    rw [h]
    simp only [Option.isSome_some, if_true, Nat.le_refl, List.take_length, List.drop_length,
      hbuf]
  refine ⟨?_, hpeek, hread, ?_, ?_⟩
  · rw [h2]; exact firstError_ReadRune _ _ _
  · unfold Reader.Discard
    rw [hread, Option.map_some']
  · intro hn
    subst hn
    have hps : r.PeekSingleRune = some ((ReplacementChar, some e), r') := by
      unfold Reader.PeekSingleRune
      rw [hpeek]
      rfl
    have hend : r.IsAtEnd = some (decide (e = Error.EOF), r') := by
      unfold Reader.IsAtEnd
      rw [hps]
      simp
    refine ⟨hps, ?_, hend, ?_⟩
    · unfold Reader.ReadSingleRune
      rw [hread]
      rfl
    · intro hne
      rw [hend]
      simp [hne]

theorem source_error_unchanged_witness :
    broken.readFromReader 3 = (some (Error.other 1), broken.exhausted)
      ∧ broken.PeekRunes 3 = some (([97], some (Error.other 1)), broken.exhausted)
      ∧ ((broken.ReadRunes 1).bind (fun x => x.2.IsAtEnd)).map Prod.fst = some false
      ∧ broken.PeekRunes 3
          = some ((broken.Runes ++ pendingRunes broken.src.script, some (Error.other 1)),
              broken.exhausted) :=
  have h := source_error_unchanged broken broken.exhausted 3 (Error.other 1) (by decide)
  ⟨by decide, by decide, by decide, h.2.1⟩

/-- Reads compose while the sum stays in the range of `int`: over a source that never
fails before its end and then reports one error for ever, the runes of `ReadRunes(a)`
followed by those of `ReadRunes(b)` are the runes of one `ReadRunes(a+b)` on the same
initial state, and both ways leave the same sequence `buffer ++ unread-source`. -/
theorem reads_compose (r : Reader) (a b : Nat) (hf : r.Fits)
    (hab : a + b < 9223372036854775808) (hs : r.src.Steady) :
    ∃ x y z e1 e2 e3 r1 r2 r3, r.ReadRunes a = some ((x, e1), r1)
      ∧ r1.ReadRunes b = some ((y, e2), r2)
      ∧ r.ReadRunes (a + b) = some ((z, e3), r3)
      ∧ x ++ y = z
      ∧ r2.view = r3.view := by
  have ha : a < 9223372036854775808 := by omega
  have hb : b < 9223372036854775808 := by omega
  obtain ⟨e1, r1, h1, hv1, hf1, hs1, _, _⟩ := ReadRunes_steady r a hf ha hs
  obtain ⟨e2, r2, h2, hv2, _, _, _, _⟩ := ReadRunes_steady r1 b hf1 hb hs1
  obtain ⟨e3, r3, h3, hv3, _, _, _, _⟩ := ReadRunes_steady r (a + b) hf hab hs
  refine ⟨_, _, _, e1, e2, e3, r1, r2, r3, h1, h2, h3, ?_, ?_⟩
  · rw [hv1, List.take_add]
  · rw [hv2, hv1, hv3, List.drop_drop, Nat.add_comm]

theorem reads_compose_witness :
    hw.Fits
      ∧ (hw.ReadRunes 5).map Prod.fst = some ([72, 101, 108, 108, 111], none)
      ∧ ((hw.ReadRunes 5).bind (fun x => x.2.ReadRunes 9)).map Prod.fst
          = some ([32, 87, 111, 114, 108, 100], some Error.EOF)
      ∧ ∃ x y z e1 e2 e3 r1 r2 r3, hw.ReadRunes 5 = some ((x, e1), r1)
          ∧ r1.ReadRunes 9 = some ((y, e2), r2)
          ∧ hw.ReadRunes (5 + 9) = some ((z, e3), r3)
          ∧ x ++ y = z
          ∧ r2.view = r3.view :=
  ⟨by decide, by decide, by decide, reads_compose hw 5 9 (by decide) (by decide) hw_steady⟩

/-- C19: on a fresh reader over "Hello World", with `a = b = 1<<62` the sum `1<<63`
does not overflow `uint`; `ReadRunes(a)` returns the eleven runes and `ReadRunes(b)`
none, both with `io.EOF`, but the single `ReadRunes(a+b)` panics, its `int` conversion
being negative. -/
theorem reads_beyond_int_do_not_compose :
    4611686018427387904 + 4611686018427387904 < 18446744073709551616
      ∧ (hw.ReadRunes 4611686018427387904).map Prod.fst
          = some ([72, 101, 108, 108, 111, 32, 87, 111, 114, 108, 100], some Error.EOF)
      ∧ ((hw.ReadRunes 4611686018427387904).bind
            (fun x => x.2.ReadRunes 4611686018427387904)).map Prod.fst
          = some ([], some Error.EOF)
      ∧ hw.ReadRunes (4611686018427387904 + 4611686018427387904) = none := by
  decide

/-- C20, as stated, fails: with "H" buffered over a source that reports `io.EOF` and
later delivers "a", the first `String()` succeeds and returns "H", and the second
returns "Ha", not exactly the buffered runes. -/
theorem second_String_differs :
    tailing.String.1 = ([72], none) ∧ tailing.String.2.Runes = [72]
      ∧ tailing.String.2.String.1 = ([72, 97], none) := by
  decide

/-- C20, amended: `String()` never changes the buffer. When the drain fails it returns
the empty string with the error. When it succeeds over a source that never fails before
its end and then reports its error for ever, a second `String()` returns exactly the
buffered runes again, which is not the empty string when runes are buffered; and in
every case a following `ReadRunes` of the buffer length still returns the buffered
runes. -/
theorem String_keeps_buffer (r : Reader) :
    r.String.2.Runes = r.Runes
      ∧ (∀ e, r.src.ReadAll.1.2 = some e → r.String.1 = ([], some e))
      ∧ (r.src.ReadAll.1.2 = none → r.src.Steady →
          r.String.2.String.1 = (encodeRunes r.Runes, none))
      ∧ (r.Runes ≠ [] → encodeRunes r.Runes ≠ [])
      ∧ (r.Fits →
          ∃ r1, r.String.2.ReadRunes r.Runes.length = some ((r.Runes, none), r1)) := by
  have hst := String_state r
  refine ⟨by rw [hst], ?_, ?_, encodeRunes_ne_nil r.Runes, ?_⟩
  · intro e he
    have hne : ¬ firstError r.src.script r.src.final = Error.EOF := by
      intro h
      rw [(ReadAll_ok_iff r).mpr h] at he
      exact Option.noConfusion he
    have : r.src.ReadAll.1.2 = some (firstError r.src.script r.src.final) := by
      unfold Source.ReadAll
      simp only [drain_eq, if_neg hne]
    rw [this] at he
    rw [String_fst, if_neg hne, Option.some.inj he]
  · intro hd hs
    have he : firstError r.src.script r.src.final = Error.EOF := (ReadAll_ok_iff r).mp hd
    have hfin : r.src.final = Error.EOF := by rw [← steady_firstError r hs]; exact he
    have hscr := (steady_pending r.src.script hs).1
    rw [String_fst, hst]
    simp [hscr, firstError, hfin, pendingBytes]
  · intro hf
    have hf' : r.String.2.Fits := by rw [hst]; exact hf
    have hle : r.Runes.length ≤ r.String.2.Runes.length := by rw [hst]
    have h := (buffered_fill_is_free_aux r.String.2 r.Runes.length hf' hle)
    refine ⟨{ src := r.String.2.src, Runes := r.String.2.Runes.drop r.Runes.length }, ?_⟩
    rw [h]
    have htake : r.String.2.Runes.take r.Runes.length = r.Runes := by
      rw [hst]; exact List.take_length _
    rw [htake]

theorem String_keeps_buffer_witness :
    hwPeeked.src.ReadAll.1.2 = none
      ∧ hwPeeked.String.2.Runes = [72, 101, 108]
      ∧ hwPeeked.String.2.String.1 = ([72, 101, 108], none)
      ∧ hwPeeked.String.2.String.1 = (encodeRunes hwPeeked.Runes, none)
      ∧ broken.String.1 = ([], some (Error.other 1)) :=
  have h := String_keeps_buffer hwPeeked
  ⟨by decide, by decide, by decide, h.2.2.1 (by decide) (filled_steady hw 3 hw_steady),
    by decide⟩

end Runeio
